import Mathlib

/-!
# Verification of the coframe plugin composition and schema resolution engine

This development is a shallow embedding of the core of the `coframe`
repository: the recursive document merge (`coframe/utils.py`,
`coframe/plugins.py`), the plugin dependency sorter
(`PluginsManager._sort_dependencies`), and the type/table/column resolver
(`coframe/db.py`).

Modelling conventions:
* YAML/JSON-like values are modelled by the inductive type `Val`
  (strings, integers, maps, lists).  Python `dict`s are association lists
  that keep insertion order; assignment to an existing key keeps its
  position and assignment to a fresh key appends at the end, exactly like
  Python 3 dicts.  We do not model `bool`/`float` scalars (no verified
  property needs them, and excluding them keeps Lean's structural equality
  in agreement with Python's `==` on the remaining values).  Map equality
  is structural, hence key-order sensitive, whereas Python compares dicts
  unordered; all inputs used below keep a fixed key order so the two
  notions agree.
* Python exceptions are modelled with `Except`: `raise` becomes
  `.error`, and uncaught `KeyError`s/`TypeError`s are errors whose message
  records the Python exception.
* In-place mutation is modelled by explicit state passing: a method that
  mutates `self` returns the updated record.
-/

set_option autoImplicit false

namespace Coframe

/-- A YAML/JSON-like runtime value: the payload of the configuration
documents merged by the plugin system. -/
inductive Val where
  | str : String → Val
  | int : Int → Val
  | dict : List (String × Val) → Val
  | list : List Val → Val

mutual

/-- Boolean equality on values (Python `==` restricted to the value kinds
we model). -/
def Val.beq : Val → Val → Bool
  | .str a, .str b => a == b
  | .int a, .int b => a == b
  | .dict a, .dict b => beqPairs a b
  | .list a, .list b => beqVals a b
  | _, _ => false
termination_by structural a => a

/-- Equality of dict entry lists. -/
def beqPairs : List (String × Val) → List (String × Val) → Bool
  | [], [] => true
  | (k, v) :: r, (k', v') :: r' => k == k' && Val.beq v v' && beqPairs r r'
  | _, _ => false
termination_by structural a => a

/-- Equality of value lists. -/
def beqVals : List Val → List Val → Bool
  | [], [] => true
  | v :: r, v' :: r' => Val.beq v v' && beqVals r r'
  | _, _ => false
termination_by structural a => a

end

mutual

theorem Val.beq_iff : ∀ a b : Val, Val.beq a b = true ↔ a = b
  | .str a, .str b => by simp [Val.beq]
  | .int a, .int b => by simp [Val.beq]
  | .dict a, .dict b => by
      simpa [Val.beq] using (beqPairs_iff a b).trans (by simp)
  | .list a, .list b => by
      simpa [Val.beq] using (beqVals_iff a b).trans (by simp)
  | .str _, .int _ | .str _, .dict _ | .str _, .list _
  | .int _, .str _ | .int _, .dict _ | .int _, .list _
  | .dict _, .str _ | .dict _, .int _ | .dict _, .list _
  | .list _, .str _ | .list _, .int _ | .list _, .dict _ => by
      simp [Val.beq]
termination_by a => sizeOf a

theorem beqPairs_iff : ∀ a b : List (String × Val), beqPairs a b = true ↔ a = b
  | [], [] => by simp [beqPairs]
  | (k, v) :: r, (k', v') :: r' => by
      simp [beqPairs, Val.beq_iff v v', beqPairs_iff r r', Prod.ext_iff,
        and_assoc]
  | [], _ :: _ => by simp [beqPairs]
  | _ :: _, [] => by simp [beqPairs]
termination_by a => sizeOf a

theorem beqVals_iff : ∀ a b : List Val, beqVals a b = true ↔ a = b
  | [], [] => by simp [beqVals]
  | v :: r, v' :: r' => by
      simp [beqVals, Val.beq_iff v v', beqVals_iff r r']
  | [], _ :: _ => by simp [beqVals]
  | _ :: _, [] => by simp [beqVals]
termination_by a => sizeOf a

end

instance : DecidableEq Val := fun a b => decidable_of_iff _ (Val.beq_iff a b)

instance {ε α : Type} [DecidableEq ε] [DecidableEq α] :
    DecidableEq (Except ε α) := fun a b =>
  match a, b with
  | .ok x, .ok y => decidable_of_iff (x = y) (by simp)
  | .error x, .error y => decidable_of_iff (x = y) (by simp)
  | .ok _, .error _ => isFalse (by simp)
  | .error _, .ok _ => isFalse (by simp)

/-- The Python runtime type tag of a value (`type(v)`), used by the merge
engine's `type(v1) is not type(v2)` compatibility check. -/
inductive ValKind where
  | str | int | dict | list
  deriving DecidableEq

def Val.kind : Val → ValKind
  | .str _ => .str
  | .int _ => .int
  | .dict _ => .dict
  | .list _ => .list

/-- A scalar is a value that is neither a map nor a list. -/
def Val.isScalar : Val → Bool
  | .str _ => true
  | .int _ => true
  | .dict _ => false
  | .list _ => false

/-- Python truthiness (`if not v`): empty strings, zero, empty dicts and
empty lists are falsy. -/
def Val.falsy : Val → Bool
  | .str s => s = ""
  | .int n => n = 0
  | .dict d => d.isEmpty
  | .list l => l.isEmpty

/-- `d[k]` lookup in a Python dict (first matching key of the assoc list). -/
def dictGet {α : Type} (d : List (String × α)) (k : String) : Option α :=
  match d with
  | [] => none
  | (k', v) :: rest => if k' = k then some v else dictGet rest k

/-- `d[k] = v` assignment in a Python dict: an existing key keeps its
position, a fresh key is appended at the end. -/
def dictSet {α : Type} (d : List (String × α)) (k : String) (v : α) :
    List (String × α) :=
  match d with
  | [] => [(k, v)]
  | (k', v') :: rest =>
      if k' = k then (k', v) :: rest else (k', v') :: dictSet rest k v

/-- `d.pop(k, None)`: remove the entry for `k` (if any). -/
def dictPop {α : Type} (d : List (String × α)) (k : String) :
    List (String × α) :=
  match d with
  | [] => []
  | (k', v') :: rest =>
      if k' = k then rest else (k', v') :: dictPop rest k

mutual

/-- `coframe.utils.deep_merge`: merge dictionary `b` into dictionary `a`
recursively.  For each key of `b`: if the key is missing from `a` it is
added; if both values are dicts they are merged recursively; if the values
are equal nothing happens; otherwise **`b`'s value overwrites `a`'s**. -/
def deep_merge (a : List (String × Val)) :
    List (String × Val) → List (String × Val)
  | [] => a
  | (k, v) :: rest => deep_merge (deep_merge_key a k v) rest
termination_by structural b => b

/-- One iteration of the `for key in b` loop of `deep_merge`: if both the
existing and the incoming value are dicts they are merged recursively, an
equal value is left alone, and any other combination is overwritten with
the incoming value. -/
def deep_merge_key (a : List (String × Val)) (k : String) :
    Val → List (String × Val)
  | Val.dict vf =>
      (match dictGet a k with
       | some (Val.dict wf) => dictSet a k (Val.dict (deep_merge wf vf))
       | some w => if w = Val.dict vf then a else dictSet a k (Val.dict vf)
       | none => dictSet a k (Val.dict vf))
  | v =>
      (match dictGet a k with
       | some w => if w = v then a else dictSet a k v
       | none => dictSet a k v)
termination_by structural x => x

end

/-!
## Merge handlers (`coframe/utils.py`, `register_standard_handlers`)

`merge_by_name` is the list-merge handler registered for the
`tables.*.columns` and `types.*.columns` path patterns.  It merges two
lists of column dicts by their `name` field.
-/

/-- Replace the first element satisfying `p` by its image under `f`
(models an in-place update of the first matching list item). -/
def update_first {α : Type} (p : α → Bool) (f : α → α) : List α → List α
  | [] => []
  | x :: xs => if p x then f x :: xs else x :: update_first p f xs

/-- `item.copy()` followed by tagging: add `_plugin` unless already present
(the append paths of `merge_by_name`). -/
def tag_plugin (item : List (String × Val)) (plugin : String) :
    List (String × Val) :=
  if (dictGet item "_plugin").isSome then item
  else dictSet item "_plugin" (Val.str plugin)

/-- `coframe.utils.register_standard_handlers.merge_by_name`: merge two
lists of dicts by their `name` field.  Items of `new_list` whose (truthy)
name already appears in the result are deep-merged into the existing item
in place (new values overwrite old ones) and their `_plugin` marker is set
to the contributing plugin; other items are appended, tagged with
`_plugin` unless already tagged. -/
def merge_by_name (base_list new_list : List (List (String × Val)))
    (plugin : String) : List (List (String × Val)) :=
  new_list.foldl (fun result new_item =>
    match dictGet new_item "name" with
    | none => result ++ [tag_plugin new_item plugin]
    | some nv =>
        if nv.falsy then result ++ [tag_plugin new_item plugin]
        else
          let same_name : List (String × Val) → Bool :=
            fun item => dictGet item "name" == some nv
          if result.any same_name then
            update_first same_name
              (fun item =>
                dictSet (deep_merge item new_item) "_plugin" (Val.str plugin))
              result
          else result ++ [tag_plugin new_item plugin]) base_list

/-!
## The merge engine (`coframe/plugins.py`, `PluginsManager._recursive_merge`)

The merge engine folds each plugin's documents into one composed document.
We model it as a pure function from `(base, new)` to either a
`MergeError` (a raised exception) or the merged dict together with the
list of key paths for which a non-fatal "Overlapping value" warning was
logged.  The handler lookup (`_get_merge_handler`, exact match then
`fnmatch` pattern match) is abstracted as a function from key paths to an
optional handler; the diagnostic history log (`_add_to_history`) and the
debug/info log lines are not modelled.
-/

/-- Exceptions raised by `_recursive_merge`:
`type_error` is the `TypeError` raised when the two values at a key have
different runtime types; `runtime_error` models the `AttributeError`
raised in the default list branch when `v1[0]` is not a dict (or `v1` is
empty) while an untagged dict item from `v1` needs a `_plugin` tag. -/
inductive MergeError where
  | type_error (key_path : String)
  | runtime_error (key_path : String)
  deriving DecidableEq

/-- The type of a registered list-merge handler (`handler(v1, v2, plugin)`). -/
abbrev MergeHandler := List Val → List Val → String → List Val

/-- `PluginsManager._build_key_path`. -/
def build_key_path (current_path : List String) (key : String) : String :=
  match current_path with
  | [] => key
  | _ => String.intercalate "." current_path ++ "." ++ key

/-- Tag the items of a freshly-added list (`key not in base` branch):
dict items without a `_plugin` key are tagged with the contributing
plugin. -/
def tag_new_list (items : List Val) (plugin : String) : List Val :=
  items.map (fun item =>
    match item with
    | Val.dict d =>
        if (dictGet d "_plugin").isSome then Val.dict d
        else Val.dict (dictSet d "_plugin" (Val.str plugin))
    | other => other)

/-- Tag the items of a default-merged list (`key in base`, no handler):
items coming from `new` get the contributing plugin, untagged dict items
coming from `base` get `v1[0].get('_plugin', plugin)`; if `v1[0]` is not a
dict this is an `AttributeError`. -/
def tag_merged_list (merged l1 l2 : List Val) (plugin : String)
    (key_path : String) : Except MergeError (List Val) :=
  merged.foldr (fun item acc =>
    match acc with
    | .error e => .error e
    | .ok tail =>
        match item with
        | Val.dict d =>
            if (dictGet d "_plugin").isSome then .ok (Val.dict d :: tail)
            else if l2.contains (Val.dict d) then
              .ok (Val.dict (dictSet d "_plugin" (Val.str plugin)) :: tail)
            else
              match l1.head? with
              | some (Val.dict d0) =>
                  .ok (Val.dict (dictSet d "_plugin"
                    ((dictGet d0 "_plugin").getD (Val.str plugin))) :: tail)
              | _ => .error (.runtime_error key_path)
        | other => .ok (other :: tail)) (.ok [])

mutual

/-- The `for key in new` loop of `_recursive_merge`, carrying the result
dict (initialised to a copy of `base`) and the warning log. -/
def merge_entries (gh : String → Option MergeHandler)
    (base : List (String × Val)) (entries : List (String × Val))
    (plugin : String) (current_path : List String)
    (result : List (String × Val)) (warns : List String) :
    Except MergeError (List (String × Val) × List String) :=
  match entries with
  | [] => .ok (result, warns)
  | (key, v2) :: rest =>
      match merge_one gh base key v2 plugin current_path with
      | .error e => .error e
      | .ok (val, w2) =>
          merge_entries gh base rest plugin current_path
            (dictSet result key val) (warns ++ w2)
termination_by structural entries

/-- One iteration of the `for key in new` loop: compute the merged value
stored at `key` and the warnings it logs.  The recursive call of
`_recursive_merge` on two nested dicts is inlined as a call of
`merge_entries` with a fresh result (`base` itself, the "copy base
dictionary" step) and an empty warning log.  The runtime-type
compatibility check `type(v1) is not type(v2)` is realised per shape of
the incoming value (an incoming dict demands an existing dict, an
incoming list an existing list, and an incoming scalar an existing scalar
of the same kind), which is the same predicate as in the source. -/
def merge_one (gh : String → Option MergeHandler)
    (base : List (String × Val)) (key : String) :
    Val → (plugin : String) → (current_path : List String) →
    Except MergeError (Val × List String)
  | Val.dict d2, plugin, current_path =>
      (match dictGet base key with
       | some (Val.dict d1) =>
           (match merge_entries gh d1 d2 plugin (current_path ++ [key])
             d1 [] with
            | .error e => .error e
            | .ok (m, w2) =>
                let tagged :=
                  match dictGet d1 "_plugin" with
                  | some p => dictSet m "_plugin" p
                  | none => dictSet m "_plugin" (Val.str plugin)
                .ok (Val.dict tagged, w2))
       | some _ =>
           .error (.type_error (build_key_path current_path key))
       | none =>
           (match merge_entries gh [] d2 plugin (current_path ++ [key])
             [] [] with
            | .error e => .error e
            | .ok (m, w2) =>
                .ok (Val.dict (dictSet m "_plugin" (Val.str plugin)), w2)))
  | Val.list l2, plugin, current_path =>
      (match dictGet base key with
       | some (Val.list l1) =>
           (match gh (build_key_path current_path key) with
            | some handler => .ok (Val.list (handler l1 l2 plugin), [])
            | none =>
                let merged :=
                  l1 ++ l2.filter (fun item => !(l1.contains item))
                match tag_merged_list merged l1 l2 plugin
                  (build_key_path current_path key) with
                | .error e => .error e
                | .ok tagged => .ok (Val.list tagged, []))
       | some _ =>
           .error (.type_error (build_key_path current_path key))
       | none => .ok (Val.list (tag_new_list l2 plugin), []))
  | v2, plugin, current_path =>
      (match dictGet base key with
       | some v1 =>
           if v1.kind ≠ v2.kind then
             .error (.type_error (build_key_path current_path key))
           else .ok (v2, [build_key_path current_path key])
       | none => .ok (v2, []))
termination_by structural x => x

end

/-- `PluginsManager._recursive_merge`: recursively merge `new` into `base`,
preserving plugin provenance.  Returns the merged dict and the key paths
of the "Overlapping value" warnings, or the raised error. -/
def recursive_merge (gh : String → Option MergeHandler)
    (base new : List (String × Val)) (plugin : String)
    (current_path : List String) :
    Except MergeError (List (String × Val) × List String) :=
  merge_entries gh base new plugin current_path base []

/-!
## The dependency sorter (`coframe/plugins.py`,
`PluginsManager._sort_dependencies`)

Plugins are ordered with Kahn's topological sort.  The input is the map
plugin name → declared dependency list (`value.config.get('depends_on')`,
already normalised to a list); Python's `set(deps)` is modelled by
`List.dedup` (only membership, removal and emptiness of the set are ever
used, so any duplicate-free list is faithful).
-/

/-- The exceptions raised by `_sort_dependencies`: a missing dependency
(`Not found dependence for ...`) or a circular dependency
(`Circular dependence found between ...`, carrying the set of unsorted
plugins). -/
inductive SortError where
  | unknown_dependency (item : String) (missing : List String)
  | circular (remaining : List String)
  deriving DecidableEq

/-- One iteration's update of the dependency map: remove `current` from
every dependency set. -/
def kahn_step_deps (deps : List (String × List String)) (current : String) :
    List (String × List String) :=
  deps.map (fun p => (p.1, p.2.erase current))

/-- The plugins whose dependency set becomes empty when `current` is
removed (they are appended to the `no_deps` queue, in map order). -/
def kahn_newly_free (deps : List (String × List String)) (current : String) :
    List String :=
  (deps.filter
      (fun p => decide (current ∈ p.2) && decide (p.2.erase current = []))
    ).map Prod.fst

/-- Deleting the popped plugin from every dependency set shrinks the total
size of the dependency map by at least the number of newly freed plugins:
the termination measure of the Kahn loop. -/
theorem kahn_measure_le (deps : List (String × List String))
    (current : String) :
    ((kahn_step_deps deps current).map (fun p => p.2.length)).sum
      + (kahn_newly_free deps current).length
      ≤ (deps.map (fun p => p.2.length)).sum := by
  induction deps with
  | nil => simp [kahn_step_deps, kahn_newly_free]
  | cons p rest ih =>
      simp only [kahn_step_deps, kahn_newly_free, List.map_cons,
        List.sum_cons, List.filter_cons] at ih ⊢
      by_cases hc : current ∈ p.2
      · have hlen : (p.2.erase current).length = p.2.length - 1 :=
          List.length_erase_of_mem hc
        have hpos : 0 < p.2.length := List.length_pos.mpr
          (List.ne_nil_of_mem hc)
        by_cases he : p.2.erase current = []
        · simp [hc, he] at ih ⊢ <;> omega
        · simp [hc, he] at ih ⊢ <;> omega
      · have hlen : (p.2.erase current).length = p.2.length :=
          by rw [List.erase_of_not_mem hc]
        simp [hc] at ih ⊢ <;> omega

/-- The `while no_deps:` loop of `_sort_dependencies` (Kahn's algorithm):
pop the front of the queue, append it to the result, delete it from every
dependency set and enqueue the plugins freed by this deletion. -/
def kahn_loop (deps : List (String × List String)) (queue res : List String) :
    List String :=
  match queue with
  | [] => res
  | current :: rest =>
      kahn_loop (kahn_step_deps deps current)
        (rest ++ kahn_newly_free deps current) (res ++ [current])
termination_by ((deps.map (fun p => p.2.length)).sum, queue.length)
decreasing_by
  simp_wf
  have h := kahn_measure_le deps current
  rcases Nat.lt_or_ge ((kahn_step_deps deps current).map
    (fun p => p.2.length)).sum ((deps.map (fun p => p.2.length)).sum) with
    hlt | hge
  · exact Prod.Lex.left _ _ hlt
  · have heq : ((kahn_step_deps deps current).map
        (fun p => p.2.length)).sum = (deps.map (fun p => p.2.length)).sum :=
      Nat.le_antisymm (Nat.le_trans (Nat.le_add_right _ _) h) hge
    have hfree : (kahn_newly_free deps current).length = 0 := by omega
    rw [heq]
    exact Prod.Lex.right _ (by simp [hfree])

/-- `PluginsManager._sort_dependencies`: build the dependency map
(deduplicating each dependency list), validate that every dependency
exists, run Kahn's algorithm, and fail with the set of unsorted plugins if
the sort is incomplete. -/
def sort_dependencies (plugins : List (String × List String)) :
    Except SortError (List String) :=
  let dependencies := plugins.map (fun p => (p.1, p.2.dedup))
  let all_items := dependencies.map Prod.fst
  match dependencies.find?
      (fun p => p.2.any (fun d => !(all_items.contains d))) with
  | some p =>
      .error (.unknown_dependency p.1
        (p.2.filter (fun d => !(all_items.contains d))))
  | none =>
      let no_deps := (dependencies.filter (fun p => p.2.isEmpty)).map Prod.fst
      let result := kahn_loop dependencies no_deps []
      if result.length ≠ dependencies.length then
        .error (.circular (all_items.filter (fun k => !(result.contains k))))
      else .ok result

/-- The declared dependency relation of a plugin configuration:
`declared_dep plugins x y` holds when plugin `x` declares a dependency on
`y`. -/
def declared_dep (plugins : List (String × List String))
    (x y : String) : Prop :=
  ∃ p ∈ plugins, p.1 = x ∧ y ∈ p.2

/-!
## Reducible string helpers

Python's `str.startswith`, `str.split('.')` and `str.lower()` are modelled
by the following character-list implementations (the corresponding
`String` library functions are not kernel-reducible, which the concrete
witnesses below rely on).
-/

/-- `s.startswith(p)`. -/
def str_startswith (s p : String) : Bool :=
  p.data.isPrefixOf s.data

/-- The worker of `str_split_dot`. -/
def split_chars (sep : Char) : List Char → List Char → List String
  | [], acc => [String.mk acc.reverse]
  | c :: rest, acc =>
      if c = sep then String.mk acc.reverse :: split_chars sep rest []
      else split_chars sep rest (c :: acc)

/-- `s.split('.')`. -/
def str_split_dot (s : String) : List String :=
  split_chars '.' s.data []

/-- `c.lower()` for a single character. -/
def char_to_lower (c : Char) : Char :=
  if 'A' ≤ c ∧ c ≤ 'Z' then Char.ofNat (c.toNat + 32) else c

/-- `s.lower()`. -/
def str_to_lower (s : String) : String :=
  String.mk (s.data.map char_to_lower)

/-!
## The schema resolver (`coframe/db.py`)

`DbType`, `DbTable` and `DbColumn` model the classes of `coframe/db.py`.
Python object references are replaced by names: both `db.types` and
`db.tables` are dicts keyed by unique names and are never rebound, so a
stored `DbType`/`DbTable` object is faithfully identified by its name and
looked up in the current catalog when read.  In particular:
* `DbColumn.db_type` stores the *name* of the resolved `DbType`;
* the `fk['table']`/`fk['id']` entries that `DbColumn.resolve` writes into
  the column's `foreign_key` dict are modelled by the record fields
  `fk_table`/`fk_id` (a `DbTable` object cannot be embedded in a `Val`);
* the `plugin` objects stored in column dicts and `DbTable.plugins` are
  represented by plugin names.
Column names are taken to be strings (the YAML schema format); a
non-string `name` is modelled as an error.
-/

/-- `coframe.db.DbColumn`: a table or type column.  `attributes` is the
column's dict, `name` is `attributes['name']`, `db_type` the resolved type
(name), `fk_table`/`fk_id` the target stored by the foreign-key branch of
`resolve`, and `attr_field`/`attr_type`/`attr_other` the attribute buckets
split off by `resolve`. -/
structure DbColumn where
  attributes : List (String × Val)
  name : String
  db_type : Option String := none
  fk_table : Option String := none
  fk_id : Option String := none
  attr_field : List (String × Val) := []
  attr_type : List (String × Val) := []
  attr_other : List (String × Val) := []
  deriving DecidableEq

/-- `DbColumn.__init__`: read `attributes['name']` (a `KeyError` if
missing). -/
def DbColumn.make (attributes : List (String × Val)) : Except String DbColumn :=
  match dictGet attributes "name" with
  | some (Val.str n) => .ok { attributes := attributes, name := n }
  | some _ => .error "TypeError: column name is not a string"
  | none => .error "KeyError: name"

/-- `coframe.db.DbType`: a column type.  `python_type` holds the name of
the Python type of a built-in (or inherited terminal) type; `columns` are
the embedded columns of a composite type, filled by `DB._calc_columns`. -/
structure DbType where
  name : String
  plugin : String
  python_type : Option String := none
  attributes : List (String × Val) := []
  inheritance : List String := []
  columns : List DbColumn := []
  deriving DecidableEq

/-- `coframe.db.DbTable`: a table.  `raw_columns` models the temporary
`_columns` list (deleted after column processing), `columns` the final
resolved columns. -/
structure DbTable where
  name : String
  table_name : String
  plugins : List String := []
  attributes : List (String × Val) := []
  raw_columns : List (List (String × Val)) := []
  columns : List DbColumn := []
  deriving DecidableEq

/-- `DbTable.update`: append the dicts of `attributes['columns']` (each
tagged with `column['plugin'] = plugin`) to `_columns`, deep-merge the
attributes, record the plugin and strip the `columns` key. -/
def DbTable.update (t : DbTable) (attributes : List (String × Val))
    (plugin : String) : Except String DbTable :=
  match dictGet attributes "columns" with
  | none => .error "KeyError: columns"
  | some (Val.list cols) =>
      match cols.mapM (fun c =>
        match c with
        | Val.dict d => some (dictSet d "plugin" (Val.str plugin))
        | _ => none) with
      | none => .error "TypeError: column is not a dict"
      | some cols' =>
          let attributes' :=
            dictSet attributes "columns" (Val.list (cols'.map Val.dict))
          .ok { t with
            raw_columns := t.raw_columns ++ cols',
            attributes := dictPop (deep_merge t.attributes attributes')
              "columns",
            plugins := t.plugins ++ [plugin] }
  | some _ => .error "TypeError: columns is not a list"

/-- `DbTable.__init__`: `table_name` defaults to `name.lower()`; a
non-string `name` attribute is not modelled. -/
def DbTable.make (name : String) (plugin : String)
    (attributes : List (String × Val)) : Except String DbTable :=
  let table_name :=
    match dictGet attributes "name" with
    | some (Val.str s) => s
    | _ => str_to_lower name
  DbTable.update { name := name, table_name := table_name } attributes plugin

/-- The `for table_name, value in tables.items()` loop of
`DB._calc_tables`, carrying the `tables` catalog and the ordered
`tables_list`. -/
def calc_tables_loop :
    List (String × Val) → List (String × DbTable) → List String →
    Except String (List (String × DbTable) × List String)
  | [], tables, tables_list => .ok (tables, tables_list)
  | entry :: rest, tables, tables_list =>
      if str_startswith entry.1 "_" then
        calc_tables_loop rest tables tables_list
      else
        match entry.2 with
        | Val.dict d =>
            let plugin_name :=
              match dictGet d "_plugin" with
              | some (Val.str s) => s
              | _ => "unknown"
            (match DbTable.make entry.1 plugin_name d with
             | .error e => .error e
             | .ok table =>
                 calc_tables_loop rest (dictSet tables entry.1 table)
                   (tables_list ++ [entry.1]))
        | _ => .error "AttributeError: table value is not a dict"

/-- `DB._calc_tables`: build the table catalog from the merged document's
`tables` map, skipping metadata keys that start with an underscore and
keeping the declaration order in `tables_list`. -/
def calc_tables (tables_doc : List (String × Val)) :
    Except String (List (String × DbTable) × List String) :=
  calc_tables_loop tables_doc [] []

/-- The fixed attribute buckets of `DbColumn.resolve`. -/
def field_keys : List String :=
  ["primary_key", "autoincrement", "unique", "nullable", "index", "default"]

/-- The type-parameter bucket of `DbColumn.resolve`. -/
def type_keys : List String := ["length", "precision", "scale", "timezone"]

/-- One step of the bucketing loop at the end of `DbColumn.resolve`. -/
def bucket_step (c : DbColumn) (kv : String × Val) : DbColumn :=
  if kv.1 ∈ field_keys then
    { c with attr_field := dictSet c.attr_field kv.1 kv.2 }
  else if kv.1 ∈ type_keys then
    { c with attr_type := dictSet c.attr_type kv.1 kv.2 }
  else { c with attr_other := dictSet c.attr_other kv.1 kv.2 }

/-- The `for key, value in self.attributes.items()` bucketing loop at the
end of `DbColumn.resolve`. -/
def DbColumn.bucket (col : DbColumn) : DbColumn :=
  col.attributes.foldl bucket_step col

/-- `DbColumn.resolve` (pass 1).  A column with a `foreign_key` attribute
parses `fk['target']` as `table.column`, looks the table up (any failure
raises the "invalid type" error) and stores the target; the column type is
*not* resolved here.  Otherwise the declared `type` is looked up in the
type catalog; when found, the type's attributes are copied under the
column's own (column keys win) and `db_type` is set; when not found,
nothing at all happens to the column besides bucketing.  A missing `type`
key is a `KeyError`. -/
def DbColumn.resolve (col : DbColumn) (types : List (String × DbType))
    (tables : List (String × DbTable)) (caller : String) :
    Except String DbColumn :=
  if (dictGet col.attributes "foreign_key").isSome then
    match dictGet col.attributes "foreign_key" with
    | some (Val.dict fk) =>
        (match dictGet fk "target" with
         | some (Val.str target) =>
             match str_split_dot target with
             | [table, id] =>
                 if (dictGet tables table).isSome then
                   .ok { col with fk_table := some table, fk_id := some id }
                 else
                   .error ("Foreign key for column: " ++ col.name ++ " in "
                     ++ caller ++ " has invalid type")
             | _ => .error ("Foreign key for column: " ++ col.name ++ " in "
                 ++ caller ++ " has invalid type")
         | _ => .error ("Foreign key for column: " ++ col.name ++ " in "
             ++ caller ++ " has invalid type"))
    | _ => .error ("Foreign key for column: " ++ col.name ++ " in " ++ caller
        ++ " has invalid type")
  else
    match dictGet col.attributes "type" with
    | none => .error ("KeyError: type for column: " ++ col.name)
    | some (Val.str cur_type) =>
        let col' :=
          match dictGet types cur_type with
          | some ty =>
              { col with
                attributes := ty.attributes.foldl
                  (fun acc (kv : String × Val) =>
                    if (dictGet acc kv.1).isSome then acc
                    else dictSet acc kv.1 kv.2) col.attributes,
                db_type := some cur_type }
          | none => col
        .ok col'.bucket
    | some (Val.int _) => .ok col.bucket
    | some _ => .error "TypeError: unhashable type"

/-- `DbColumn.resolve_foreign` (pass 2): copy the referenced column's
`db_type` onto the referencing column; a missing target column or a target
column with no resolved type raises the "invalid foreign reference"
error. -/
def DbColumn.resolve_foreign (col : DbColumn)
    (tables : List (String × DbTable)) : Except String DbColumn :=
  match dictGet col.attributes "foreign_key" with
  | none => .ok col
  | some fkv =>
      if fkv.falsy then .ok col
      else
        match col.fk_table, col.fk_id with
        | some t, some id =>
            (match dictGet tables t with
             | some foreign =>
                 match foreign.columns.find? (fun c => c.name == id) with
                 | some c =>
                     match c.db_type with
                     | some d => .ok { col with db_type := some d }
                     | none => .error ("Column: " ++ col.name
                         ++ " has invalid foreign reference")
                 | none => .error ("Column: " ++ col.name
                     ++ " has invalid foreign reference")
             | none => .error "KeyError: foreign table")
        | _, _ => .error "KeyError: table"

/-- The `while 'base' in type_obj.attributes` walk of `DbType.resolve`:
append each base to the inheritance chain and deep-merge its attributes
into the current type's (so on a conflict the *base* wins, see
`deep_merge`).  The walk may not terminate on a cyclic `base` chain; the
fuel models Python's non-termination as an error, and any fuel larger than
the chain length is enough for a terminating walk. -/
def resolve_type_loop (types : List (String × DbType)) (self ty : DbType) :
    ℕ → Except String DbType
  | 0 => .error "RecursionError: base chain does not terminate"
  | fuel + 1 =>
      match dictGet ty.attributes "base" with
      | none => .ok { self with python_type := ty.python_type }
      | some bv =>
          if (dictGet types ty.name).isNone then
            .error ("Type \"" ++ ty.name ++ "\" declared in \"" ++ ty.plugin
              ++ "\" is not found")
          else
            match bv with
            | Val.str b =>
                (match dictGet types b with
                 | none => .error ("KeyError: " ++ b)
                 | some next =>
                     resolve_type_loop types
                       { self with
                         inheritance := self.inheritance ++ [next.name],
                         attributes := deep_merge self.attributes
                           next.attributes }
                       next fuel)
            | _ => .error "TypeError: unhashable base"

/-- `DbType.resolve` invoked on the catalog entry named `n` (the
`self.types[type_name].resolve(self.types)` call of `DB._calc_types`):
returns the catalog with that entry replaced by its resolved version. -/
def resolve_type (types : List (String × DbType)) (n : String) (fuel : ℕ) :
    Except String (List (String × DbType)) :=
  match dictGet types n with
  | none => .ok types
  | some self =>
      match resolve_type_loop types self self fuel with
      | .error e => .error e
      | .ok self' => .ok (dictSet types n self')

/-!
### `DB._calc_columns`

The three phases of `_calc_columns`:
* phase A resolves the embedded columns of composite types
  (`for type_name in self.types: ...`);
* phase B builds each table's column list, expanding composite-type
  columns and checking for duplicate names
  (`for table_name in self.tables: ...`);
* phase C is the deferred pass resolving foreign keys and many-to-many
  links (`for table_name in self.tables: ... resolve_foreign ...
  resolve_m2m`).
In Python the passes mutate the shared `db.types`/`db.tables` dicts in
place; here each phase threads the current catalogs explicitly, updating
them entry by entry in iteration order, which reproduces exactly what a
later read of the shared dict observes.
-/

/-- The `for column in self.types[type_name].attributes.get('columns', [])`
loop of `_calc_columns`: build and resolve each embedded column. -/
def resolve_type_cols (types : List (String × DbType))
    (tables : List (String × DbTable)) (type_name : String) :
    List Val → Except String (List DbColumn)
  | [] => .ok []
  | Val.dict d :: rest =>
      (match DbColumn.make d with
       | .error e => .error e
       | .ok c =>
           match c.resolve types tables ("type: " ++ type_name) with
           | .error e => .error e
           | .ok c' =>
               match resolve_type_cols types tables type_name rest with
               | .error e => .error e
               | .ok cs => .ok (c' :: cs))
  | _ :: _ => .error "TypeError: type column is not a dict"

/-- Phase A of `_calc_columns` over the (fixed) list of type names.  The
in-place mutation of the embedded column dicts during resolution is
reflected by writing the resolved columns' attributes back into the type's
`columns` attribute (the Python dicts are shared); the `fk['table']`
object stored by a foreign-key branch lives in the `DbColumn` record
only. -/
def calc_types_phase (tables : List (String × DbTable)) :
    List String → List (String × DbType) →
    Except String (List (String × DbType))
  | [], types => .ok types
  | tn :: rest, types =>
      match dictGet types tn with
      | none => calc_types_phase tables rest types
      | some ty =>
          match dictGet ty.attributes "columns" with
          | none => calc_types_phase tables rest types
          | some (Val.list raw) =>
              (match resolve_type_cols types tables tn raw with
               | .error e => .error e
               | .ok cols =>
                   let ty' := { ty with
                     columns := ty.columns ++ cols,
                     attributes := dictSet ty.attributes "columns"
                       (Val.list (cols.map (fun c => Val.dict c.attributes))) }
                   calc_types_phase tables rest (dictSet types tn ty'))
          | some _ => .error "TypeError: type columns is not a list"

/-- The duplicate scan
`for i, c1 in enumerate(columns): for c2 in columns[i+1:]` — returns the
name of the first column that reappears later in the list. -/
def first_duplicate : List DbColumn → Option String
  | [] => none
  | c :: rest =>
      if rest.any (fun c2 => c2.name == c.name) then some c.name
      else first_duplicate rest

/-- The composite-type expansion: one `DbColumn` per embedded column of the
type, named `prefix + name`, each independently resolved. -/
def expand_type_cols (types : List (String × DbType))
    (tables : List (String × DbTable)) (table_name pfx : String) :
    List DbColumn → Except String (List DbColumn)
  | [] => .ok []
  | tc :: rest =>
      match DbColumn.make tc.attributes with
      | .error e => .error e
      | .ok c =>
          match DbColumn.resolve { c with name := pfx ++ c.name } types tables
              ("table: " ++ table_name) with
          | .error e => .error e
          | .ok c' =>
              match expand_type_cols types tables table_name pfx rest with
              | .error e => .error e
              | .ok cs => .ok (c' :: cs)

/-- Process one raw table column: resolve it, expand it if its type is a
composite type with embedded columns (the `prefix` attribute is read from
the column's dict after resolution, as in Python, where the raw dict and
`col.attributes` are the same object). -/
def process_raw_column (types : List (String × DbType))
    (tables : List (String × DbTable)) (table_name : String)
    (col : DbColumn) : Except String (List DbColumn) :=
  match col.db_type with
  | none => .ok [col]
  | some tyname =>
      match dictGet types tyname with
      | none => .ok [col]
      | some ty =>
          if ty.columns.isEmpty then .ok [col]
          else
            match dictGet col.attributes "prefix" with
            | none => expand_type_cols types tables table_name "" ty.columns
            | some (Val.str p) =>
                expand_type_cols types tables table_name p ty.columns
            | some _ => .error "TypeError: prefix is not a string"

/-- The `for column in self.tables[table_name]._columns` loop of
`_calc_columns`: resolve and expand each raw column, checking for
duplicate names after each step. -/
def process_table_cols (types : List (String × DbType))
    (tables : List (String × DbTable)) (table_name : String) :
    List (List (String × Val)) → List DbColumn →
    Except String (List DbColumn)
  | [], cols => .ok cols
  | raw :: rest, cols =>
      match DbColumn.make raw with
      | .error e => .error e
      | .ok c =>
          match c.resolve types tables ("table: " ++ table_name) with
          | .error e => .error e
          | .ok c' =>
              match process_raw_column types tables table_name c' with
              | .error e => .error e
              | .ok expansion =>
                  let cols' := cols ++ expansion
                  match first_duplicate cols' with
                  | some n => .error ("Duplicated column \"" ++ n
                      ++ "\" in table \"" ++ table_name ++ "\"")
                  | none => process_table_cols types tables table_name rest
                      cols'

/-- Pass 1 of table construction for a single table: the body of the
`for table_name in self.tables` loop of `_calc_columns` (lines 158-181 of
`coframe/db.py`). -/
def calc_table_columns (types : List (String × DbType))
    (tables : List (String × DbTable)) (table_name : String)
    (raws : List (List (String × Val))) : Except String (List DbColumn) :=
  process_table_cols types tables table_name raws []

/-- Phase B of `_calc_columns` over the (fixed) list of table names,
threading the mutated table catalog. -/
def calc_tables_phase (types : List (String × DbType)) :
    List String → List (String × DbTable) →
    Except String (List (String × DbTable))
  | [], tables => .ok tables
  | tn :: rest, tables =>
      match dictGet tables tn with
      | none => calc_tables_phase types rest tables
      | some t =>
          match calc_table_columns types tables tn t.raw_columns with
          | .error e => .error e
          | .ok cols =>
              calc_tables_phase types rest
                (dictSet tables tn
                  { t with columns := cols, raw_columns := [] })

/-- Validity of one many-to-many target (`_resolve_target` inside
`DbTable.resolve_m2m`): `target['table']` parses as `table.column`, the
table exists and the referenced column has a resolved type.  Any failure
is caught by the surrounding `except` and re-raised as the table-level
many-to-many error.  The mutation of the target dict (storing the table
object and the type) is not modelled: nothing verified reads it. -/
def m2m_target_ok (tables : List (String × DbTable)) (target : Val) : Bool :=
  match target with
  | Val.dict td =>
      match dictGet td "table" with
      | some (Val.str s) =>
          (match str_split_dot s with
           | [table, id] =>
               match dictGet tables table with
               | some foreign =>
                   match foreign.columns.find? (fun c => c.name == id) with
                   | some c => c.db_type.isSome
                   | none => false
               | none => false
           | _ => false)
      | _ => false
  | _ => false

/-- `DbTable.resolve_m2m`: validate the two targets of a (truthy)
`many_to_many` attribute. -/
def DbTable.resolve_m2m (t : DbTable) (tables : List (String × DbTable)) :
    Except String Unit :=
  match dictGet t.attributes "many_to_many" with
  | none => .ok ()
  | some m2m =>
      if m2m.falsy then .ok ()
      else
        match m2m with
        | Val.dict md =>
            (match dictGet md "target1", dictGet md "target2" with
             | some t1, some t2 =>
                 if m2m_target_ok tables t1 && m2m_target_ok tables t2 then
                   .ok ()
                 else .error ("Many to Many error for table: " ++ t.name)
             | _, _ => .error ("Many to Many error for table: " ++ t.name))
        | _ => .error ("Many to Many error for table: " ++ t.name)

/-- Pass 2 for the columns of one table: each column's `resolve_foreign`
runs against the live catalog, in which the columns already processed
(of this or an earlier table) have their foreign types filled in. -/
def pass2_cols (tn : String) (done : List DbColumn) :
    List DbColumn → List (String × DbTable) →
    Except String (List (String × DbTable))
  | [], tables => .ok tables
  | c :: rest, tables =>
      match c.resolve_foreign tables with
      | .error e => .error e
      | .ok c' =>
          match dictGet tables tn with
          | none => .error "KeyError: table"
          | some t =>
              pass2_cols tn (done ++ [c']) rest
                (dictSet tables tn { t with columns := done ++ c' :: rest })

/-- Pass 2 (phase C) of `_calc_columns` over the table names: resolve every
foreign key, then the table's many-to-many declaration. -/
def pass2_phase :
    List String → List (String × DbTable) →
    Except String (List (String × DbTable))
  | [], tables => .ok tables
  | tn :: rest, tables =>
      match dictGet tables tn with
      | none => pass2_phase rest tables
      | some t =>
          match pass2_cols tn [] t.columns tables with
          | .error e => .error e
          | .ok tables' =>
              match dictGet tables' tn with
              | none => .error "KeyError: table"
              | some t' =>
                  match t'.resolve_m2m tables' with
                  | .error e => .error e
                  | .ok () => pass2_phase rest tables'

/-- `DB._calc_columns`: the full two-pass column resolution over the type
and table catalogs produced by `_calc_types`/`_calc_tables`. -/
def calc_columns (types : List (String × DbType))
    (tables : List (String × DbTable)) :
    Except String (List (String × DbType) × List (String × DbTable)) :=
  match calc_types_phase tables (types.map Prod.fst) types with
  | .error e => .error e
  | .ok types' =>
      match calc_tables_phase types' (tables.map Prod.fst) tables with
      | .error e => .error e
      | .ok tables1 =>
          match pass2_phase (tables.map Prod.fst) tables1 with
          | .error e => .error e
          | .ok tables2 => .ok (types', tables2)

/-!
## Basic dictionary lemmas
-/

theorem dictGet_dictSet_self {α : Type} (d : List (String × α)) (k : String)
    (v : α) : dictGet (dictSet d k v) k = some v := by
  induction d with
  | nil => simp [dictSet, dictGet]
  | cons p rest ih =>
      by_cases h : p.1 = k <;> simp [dictSet, dictGet, h, ih]

theorem dictGet_dictSet_other {α : Type} (d : List (String × α))
    (k k' : String) (v : α) (h : k ≠ k') :
    dictGet (dictSet d k v) k' = dictGet d k' := by
  induction d with
  | nil => simp [dictSet, dictGet, h]
  | cons p rest ih =>
      by_cases hp : p.1 = k
      · simp [dictSet, dictGet, hp, h, Ne.symm h]
      · by_cases hp' : p.1 = k' <;>
          simp [dictSet, dictGet, hp, hp', Ne.symm h, ih]

theorem dictGet_eq_none_of_not_mem {α : Type} (d : List (String × α))
    (k : String) (h : k ∉ d.map Prod.fst) : dictGet d k = none := by
  induction d with
  | nil => rfl
  | cons p rest ih =>
      simp only [List.map_cons, List.mem_cons] at h
      push_neg at h
      simp [dictGet, Ne.symm h.1, ih h.2]

theorem dictGet_some_mem {α : Type} (d : List (String × α)) (k : String)
    (v : α) (h : dictGet d k = some v) : (k, v) ∈ d := by
  induction d with
  | nil => simp [dictGet] at h
  | cons p rest ih =>
      by_cases hp : p.1 = k
      · simp only [dictGet, hp, if_true, Option.some.injEq] at h
        subst h
        subst hp
        simp
      · simp only [dictGet, hp, if_false] at h
        exact List.mem_cons_of_mem _ (ih h)

theorem dictSet_eq_append_of_not_mem {α : Type} (d : List (String × α))
    (k : String) (v : α) (h : k ∉ d.map Prod.fst) :
    dictSet d k v = d ++ [(k, v)] := by
  induction d with
  | nil => rfl
  | cons p rest ih =>
      simp only [List.map_cons, List.mem_cons] at h
      push_neg at h
      simp [dictSet, Ne.symm h.1, ih h.2]

/-- The defining equations of `deep_merge`/`deep_merge_key` (their nested
structural recursion does not generate equation lemmas automatically). -/
theorem deep_merge_nil (a : List (String × Val)) : deep_merge a [] = a := by
  rw [deep_merge]

theorem deep_merge_cons (a : List (String × Val)) (k : String) (v : Val)
    (rest : List (String × Val)) :
    deep_merge a ((k, v) :: rest) =
      deep_merge (deep_merge_key a k v) rest := by
  rw [deep_merge]

theorem deep_merge_key_dict (a : List (String × Val)) (k : String)
    (vf : List (String × Val)) :
    deep_merge_key a k (Val.dict vf) =
      match dictGet a k with
      | some (Val.dict wf) => dictSet a k (Val.dict (deep_merge wf vf))
      | some w => if w = Val.dict vf then a else dictSet a k (Val.dict vf)
      | none => dictSet a k (Val.dict vf) := by
  rw [deep_merge_key]

theorem deep_merge_key_ndict (a : List (String × Val)) (k : String) (v : Val)
    (hv : v.kind ≠ ValKind.dict) :
    deep_merge_key a k v =
      match dictGet a k with
      | some w => if w = v then a else dictSet a k v
      | none => dictSet a k v := by
  cases v with
  | dict vf => exact absurd rfl hv
  | str s => rw [deep_merge_key] <;> simp
  | int n => rw [deep_merge_key] <;> simp
  | list l => rw [deep_merge_key] <;> simp

theorem dictGet_ite_dictSet_self (a : List (String × Val)) (k : String)
    (w v : Val) (ha : dictGet a k = some w) :
    dictGet (if w = v then a else dictSet a k v) k = some v := by
  split
  · next he => rw [ha, he]
  · exact dictGet_dictSet_self a k v

theorem dictGet_ite_dictSet_other (a : List (String × Val)) (k k' : String)
    (w v : Val) (h : k ≠ k') :
    dictGet (if w = v then a else dictSet a k v) k' = dictGet a k' := by
  split
  · rfl
  · exact dictGet_dictSet_other a k k' v h

/-- Keys other than `k` are untouched by `deep_merge_key`. -/
theorem dictGet_deep_merge_key_other (a : List (String × Val)) (k k' : String)
    (v : Val) (h : k ≠ k') :
    dictGet (deep_merge_key a k v) k' = dictGet a k' := by
  by_cases hv : v.kind = ValKind.dict
  · obtain ⟨vf, rfl⟩ : ∃ vf, v = Val.dict vf := by
      cases v <;> simp [Val.kind] at hv ⊢
    rw [deep_merge_key_dict]
    cases ha : dictGet a k with
    | none => exact dictGet_dictSet_other a k k' _ h
    | some w =>
        cases w <;> simp only [] <;>
          first
            | exact dictGet_ite_dictSet_other a k k' _ _ h
            | exact dictGet_dictSet_other a k k' _ h
  · rw [deep_merge_key_ndict a k v hv]
    cases ha : dictGet a k with
    | none => exact dictGet_dictSet_other a k k' _ h
    | some w => exact dictGet_ite_dictSet_other a k k' _ _ h

/-- A key that `b` does not contain keeps its `a` value (or absence) in
`deep_merge a b`. -/
theorem dictGet_deep_merge_of_none (a b : List (String × Val)) (k : String)
    (hb : dictGet b k = none) :
    dictGet (deep_merge a b) k = dictGet a k := by
  induction b generalizing a with
  | nil => simp [deep_merge]
  | cons p rest ih =>
      match p with
      | (k1, v1) =>
          by_cases h1 : k1 = k
          · subst h1
            simp [dictGet] at hb
          · simp only [dictGet, h1, if_false] at hb
            rw [deep_merge_cons, ih _ hb,
              dictGet_deep_merge_key_other a k1 k v1 h1]

/-- A key that `b` maps to a value `v`, where `v` and the existing `a`
value are not both dicts, ends up with exactly `v` in `deep_merge a b`
(`b`'s keys must be duplicate-free, as a Python dict's are). -/
theorem dictGet_deep_merge_of_some (a b : List (String × Val)) (k : String)
    (v : Val) (hnd : (b.map Prod.fst).Nodup) (hb : dictGet b k = some v)
    (hcond : ∀ w, dictGet a k = some w →
      w.kind ≠ ValKind.dict ∨ v.kind ≠ ValKind.dict) :
    dictGet (deep_merge a b) k = some v := by
  induction b generalizing a with
  | nil => simp [dictGet] at hb
  | cons p rest ih =>
      match p with
      | (k1, v1) =>
          simp only [List.map_cons, List.nodup_cons] at hnd
          by_cases h1 : k1 = k
          · subst h1
            simp only [dictGet, if_true, Option.some.injEq] at hb
            subst hb
            have hrest : dictGet rest k1 = none :=
              dictGet_eq_none_of_not_mem rest k1 hnd.1
            rw [deep_merge_cons, dictGet_deep_merge_of_none _ rest k1 hrest]
            by_cases hv : v1.kind = ValKind.dict
            · obtain ⟨vf, rfl⟩ : ∃ vf, v1 = Val.dict vf := by
                cases v1 <;> simp [Val.kind] at hv ⊢
              rw [deep_merge_key_dict]
              cases ha : dictGet a k1 with
              | none => exact dictGet_dictSet_self a k1 _
              | some w =>
                  have hc := hcond w ha
                  cases w <;> simp only [] <;>
                    first
                      | exact dictGet_ite_dictSet_self a k1 _ _ ha
                      | exact dictGet_dictSet_self a k1 _
                      | simp [Val.kind] at hc
            · rw [deep_merge_key_ndict a k1 v1 hv]
              cases ha : dictGet a k1 with
              | none => exact dictGet_dictSet_self a k1 _
              | some w => exact dictGet_ite_dictSet_self a k1 _ _ ha
          · simp only [dictGet, h1, if_false] at hb
            rw [deep_merge_cons]
            refine ih _ hnd.2 hb ?_
            intro w hw
            rw [dictGet_deep_merge_key_other a k1 k v1 h1] at hw
            exact hcond w hw

/-- `update_first` on a list whose first match is `y`: the elements before
`y` fail the predicate, so exactly `y` is replaced. -/
theorem update_first_append {α : Type} (p : α → Bool) (f : α → α)
    (pre post : List α) (y : α) (hpre : ∀ x ∈ pre, p x = false)
    (hy : p y = true) :
    update_first p f (pre ++ y :: post) = pre ++ f y :: post := by
  induction pre with
  | nil => simp [update_first, hy]
  | cons x xs ih =>
      have hx := hpre x (by simp)
      simp only [List.cons_append, update_first, hx, Bool.false_eq_true,
        if_false, List.cons.injEq, true_and]
      exact ih (fun z hz => hpre z (by simp [hz]))

/-!
## Facts about `DbColumn.resolve` and `DbColumn.bucket`
-/

/-- `DbColumn.bucket` only fills the three attribute buckets: every other
field of the column is unchanged. -/
theorem bucket_fold_preserves (l : List (String × Val)) :
    ∀ c : DbColumn,
      (l.foldl bucket_step c).attributes = c.attributes ∧
      (l.foldl bucket_step c).name = c.name ∧
      (l.foldl bucket_step c).db_type = c.db_type ∧
      (l.foldl bucket_step c).fk_table = c.fk_table ∧
      (l.foldl bucket_step c).fk_id = c.fk_id := by
  induction l with
  | nil => intro c; exact ⟨rfl, rfl, rfl, rfl, rfl⟩
  | cons kv rest ih =>
      intro c
      have hstep : (bucket_step c kv).attributes = c.attributes ∧
          (bucket_step c kv).name = c.name ∧
          (bucket_step c kv).db_type = c.db_type ∧
          (bucket_step c kv).fk_table = c.fk_table ∧
          (bucket_step c kv).fk_id = c.fk_id := by
        unfold bucket_step
        by_cases h1 : kv.1 ∈ field_keys
        · simp [h1]
        · by_cases h2 : kv.1 ∈ type_keys <;> simp [h1, h2]
      have := ih (bucket_step c kv)
      simp only [List.foldl_cons]
      exact ⟨this.1.trans hstep.1, this.2.1.trans hstep.2.1,
        this.2.2.1.trans hstep.2.2.1, this.2.2.2.1.trans hstep.2.2.2.1,
        this.2.2.2.2.trans hstep.2.2.2.2⟩

theorem bucket_preserves (col : DbColumn) :
    (DbColumn.bucket col).attributes = col.attributes ∧
    (DbColumn.bucket col).name = col.name ∧
    (DbColumn.bucket col).db_type = col.db_type ∧
    (DbColumn.bucket col).fk_table = col.fk_table ∧
    (DbColumn.bucket col).fk_id = col.fk_id :=
  bucket_fold_preserves col.attributes col

/-- `DbColumn.resolve` never changes the column's name. -/
theorem resolve_name (col : DbColumn) (types : List (String × DbType))
    (tables : List (String × DbTable)) (caller : String) (c' : DbColumn)
    (h : col.resolve types tables caller = .ok c') : c'.name = col.name := by
  simp only [DbColumn.resolve] at h
  repeat' split at h
  all_goals first
    | exact (Except.noConfusion h)
    | (injection h with h
       subst h
       first
         | rfl
         | exact (bucket_preserves _).2.1)

/-- A dict whose `name` entry is the string `nm` makes a column named
`nm` carrying the dict as its attributes. -/
theorem make_of_name (attrs : List (String × Val)) (nm : String)
    (hn : dictGet attrs "name" = some (Val.str nm)) :
    DbColumn.make attrs = .ok { attributes := attrs, name := nm } := by
  simp [DbColumn.make, hn]

/-- The names produced by the composite expansion: one column per embedded
column, named `pfx ++` the embedded name, in embedded order. -/
theorem expand_type_cols_names (types : List (String × DbType))
    (tables : List (String × DbTable)) (table_name pfx : String) :
    ∀ (tcl cs : List DbColumn),
      (∀ tc ∈ tcl, dictGet tc.attributes "name" = some (Val.str tc.name)) →
      expand_type_cols types tables table_name pfx tcl = .ok cs →
      cs.map (fun c : DbColumn => c.name) =
        tcl.map (fun tc : DbColumn => pfx ++ tc.name) := by
  intro tcl
  induction tcl with
  | nil =>
      intro cs _ h
      simp only [expand_type_cols, Except.ok.injEq] at h
      subst h; rfl
  | cons tc rest ih =>
      intro cs hnames h
      simp only [expand_type_cols,
        make_of_name tc.attributes tc.name (hnames tc (by simp))] at h
      split at h
      · exact (Except.noConfusion h)
      · rename_i c' hres
        split at h
        · exact (Except.noConfusion h)
        · rename_i cs0 hrest
          injection h with h
          subst h
          have hn' := resolve_name _ types tables _ c' hres
          simp only [List.map_cons, hn']
          exact List.cons_eq_cons.mpr ⟨rfl, ih cs0
            (fun x hx => hnames x (List.mem_cons_of_mem _ hx)) hrest⟩

/-- A clean duplicate scan means the column names are duplicate-free. -/
theorem first_duplicate_none (l : List DbColumn)
    (h : first_duplicate l = none) :
    (l.map (fun c : DbColumn => c.name)).Nodup := by
  induction l with
  | nil => simp
  | cons c rest ih =>
      simp only [first_duplicate] at h
      by_cases ha : rest.any (fun c2 => c2.name == c.name)
      · simp [ha] at h
      · simp only [ha, Bool.false_eq_true, if_false] at h
        simp only [List.any_eq_true, beq_iff_eq] at ha
        push_neg at ha
        refine List.nodup_cons.mpr ⟨?_, ih h⟩
        intro hmem
        simp only [List.mem_map] at hmem
        obtain ⟨c2, hc2, he⟩ := hmem
        exact ha c2 hc2 he

/-- `process_table_cols` keeps the duplicate scan clean: starting from a
clean accumulator, a successful run ends with a clean column list. -/
theorem process_table_cols_clean (types : List (String × DbType))
    (tables : List (String × DbTable)) (tn : String) :
    ∀ (raws : List (List (String × Val))) (acc cols : List DbColumn),
      first_duplicate acc = none →
      process_table_cols types tables tn raws acc = .ok cols →
      first_duplicate cols = none := by
  intro raws
  induction raws with
  | nil =>
      intro acc cols hacc h
      simp only [process_table_cols, Except.ok.injEq] at h
      subst h; exact hacc
  | cons raw rest ih =>
      intro acc cols hacc h
      simp only [process_table_cols] at h
      split at h
      · exact (Except.noConfusion h)
      · split at h
        · exact (Except.noConfusion h)
        · split at h
          · exact (Except.noConfusion h)
          · split at h
            · exact (Except.noConfusion h)
            · rename_i hclean
              exact ih _ cols hclean h

/-!
## Claim C9

The claim: a table column whose declared `type` string is not a known
type name is parsed as a `table.column` reference and turned into a
foreign-key stub.  In `coframe/db.py` this is false: `DbColumn.resolve`
builds a foreign-key stub only from an explicit `foreign_key` attribute,
and a column with an unknown `type` and no `foreign_key` attribute is
silently left untyped with no foreign-key mark.  (The `table.column`
parsing of a type string existed in the historical snapshot
`coframe/app.py`, which the resolver in `coframe/db.py` replaces.)
-/

/-- The one-table catalog used by the C9 counterexample. -/
def c9_tables : List (String × DbTable) :=
  [("Orders", { name := "Orders", table_name := "orders" })]

/-- **C9, counterexample.**  The column `x` declares the type string
`"Orders.id"`, which is not a known type name, and table `Orders` exists;
yet `DbColumn.resolve` succeeds with *no* foreign-key stub (`fk_table`
and `fk_id` stay `none`) and no resolved type — contradicting the claim
that Pass 1 parses the string as a `table.column` reference and marks the
column as a foreign key. -/
theorem C9_counterexample :
    ((DbColumn.make [("name", Val.str "x"), ("type", Val.str "Orders.id")]
      ).bind (fun c => c.resolve [] c9_tables "table: T")).map
        (fun c => (c.fk_table, c.fk_id, c.db_type))
      = .ok (none, none, none) := by decide

/-- **C9 (amended).**  Pass 1 builds a foreign-key stub only from an
explicit `foreign_key` attribute whose `target` splits as
`table.column` and whose table exists in the catalog: the stub records
the target table and column name and the column's type stays unresolved
(deferred to Pass 2).  A column with no `foreign_key` attribute whose
declared type is not a known type name is left with no foreign-key mark
and no resolved type. -/
theorem C9_fk_stub_from_fk_attr
    (attrs : List (String × Val)) (types : List (String × DbType))
    (tables : List (String × DbTable)) (caller n : String)
    (col : DbColumn)
    (hname : dictGet attrs "name" = some (Val.str n))
    (hmk : DbColumn.make attrs = .ok col) :
    (∀ fk target tname cname,
      dictGet attrs "foreign_key" = some (Val.dict fk) →
      dictGet fk "target" = some (Val.str target) →
      str_split_dot target = [tname, cname] →
      (dictGet tables tname).isSome = true →
      col.resolve types tables caller =
        .ok { col with fk_table := some tname, fk_id := some cname } ∧
      col.db_type = none) ∧
    (∀ ty, dictGet attrs "foreign_key" = none →
      dictGet attrs "type" = some (Val.str ty) →
      dictGet types ty = none →
      ∃ c', col.resolve types tables caller = .ok c' ∧
        c'.fk_table = none ∧ c'.fk_id = none ∧ c'.db_type = none) := by
  have hcol : col = { attributes := attrs, name := n } := by
    simp only [DbColumn.make, hname] at hmk
    exact (Except.ok.injEq _ _).mp hmk.symm
  subst hcol
  constructor
  · intro fk target tname cname hfk htarget hsplit htbl
    refine ⟨?_, rfl⟩
    simp only [DbColumn.resolve, hfk, Option.isSome_some, if_true, htarget,
      hsplit, htbl]
  · intro ty hnofk htype hunknown
    refine ⟨DbColumn.bucket { attributes := attrs, name := n }, ?_, ?_⟩
    · simp only [DbColumn.resolve, hnofk, Option.isSome_none,
        Bool.false_eq_true, if_false, htype, hunknown]
    · have h := bucket_preserves { attributes := attrs, name := n }
      exact ⟨h.2.2.2.1, h.2.2.2.2, h.2.2.1⟩

/-- **C9, witness** for the amended theorem: a `foreign_key` column whose
target is `Orders.id` gets the stub `(Orders, id)` with no resolved type,
and a column with unknown type `Address` and no `foreign_key` attribute is
left untouched. -/
theorem C9_fk_stub_from_fk_attr_witness :
    (DbColumn.resolve
        { attributes := [("name", Val.str "order_id"),
            ("foreign_key", Val.dict [("target", Val.str "Orders.id")])],
          name := "order_id" } [] c9_tables "table: LineItem").map
        (fun c => (c.fk_table, c.fk_id, c.db_type))
      = .ok (some "Orders", some "id", none) ∧
    (DbColumn.resolve
        { attributes := [("name", Val.str "addr"),
            ("type", Val.str "Address")],
          name := "addr" } [] c9_tables "table: LineItem").map
        (fun c => (c.fk_table, c.fk_id, c.db_type))
      = .ok (none, none, none) := by
  have h1 := (C9_fk_stub_from_fk_attr
    [("name", Val.str "order_id"),
      ("foreign_key", Val.dict [("target", Val.str "Orders.id")])]
    [] c9_tables "table: LineItem" "order_id"
    { attributes := [("name", Val.str "order_id"),
        ("foreign_key", Val.dict [("target", Val.str "Orders.id")])],
      name := "order_id" } (by decide) (by decide)).1
    [("target", Val.str "Orders.id")] "Orders.id" "Orders" "id"
    (by decide) (by decide) (by decide) (by decide)
  obtain ⟨c', hres, hft, hfi, hdb⟩ := (C9_fk_stub_from_fk_attr
    [("name", Val.str "addr"), ("type", Val.str "Address")]
    [] c9_tables "table: LineItem" "addr"
    { attributes := [("name", Val.str "addr"), ("type", Val.str "Address")],
      name := "addr" } (by decide) (by decide)).2
    "Address" (by decide) (by decide) (by decide)
  constructor
  · rw [h1.1]; rfl
  · rw [hres]; simp [Except.map, hft, hfi, hdb]

/-!
## Claim C6

The claim: after inheritance resolution a type's own explicitly declared
attributes always keep their declared values, even when an ancestor
declares the same attribute differently ("the base's attributes are merged
under the current type's own, never over them").  In `coframe/db.py` this
is false and the spec states the evident intent: `DbType.resolve` calls
`deep_merge(self.attributes, base.attributes)` and `deep_merge` lets its
*second* argument win every conflict, so the base *overwrites* the
derived type's own values.  The historical snapshot `coframe/app.py`
implements the claimed behaviour (`attr = base.attributes.copy();
attr.update(self.attributes)`), and the analogous column-attribute
inheritance in `DbColumn.resolve` also lets the column's own attributes
win (`if key not in self.attributes`), so the `db.py` direction is a slip
introduced when `attr.update` was replaced by `deep_merge`.
-/

/-- The two-type catalog exhibiting the C6 bug: `A` declares
`label = "A"`, `C` inherits from `A` and declares its own
`label = "C"`. -/
def c6_types : List (String × DbType) :=
  [("A", { name := "A", plugin := "core", python_type := some "int",
           attributes := [("label", Val.str "A")] }),
   ("C", { name := "C", plugin := "p",
           attributes := [("base", Val.str "A"), ("label", Val.str "C")] })]

/-- **C6, failing evaluation.**  Resolving `C` leaves
`C.attributes['label'] = "A"`: the base's value overwrote the type's own
explicitly declared `"C"`, contradicting the claim (and the intent
implemented in `coframe/app.py`). -/
theorem C6_base_overwrites_own_attribute :
    (resolve_type c6_types "C" 10).map (fun cat =>
      (dictGet cat "C").map (fun c => dictGet c.attributes "label"))
      = .ok (some (some (Val.str "A"))) := by decide

/-!
## Claim C2

The claim: resolving the same `TypeDef` twice yields an identical chain
and attribute map; for a chain `C → B → A` the chain has exactly 2
elements after both the first and the second resolution.  In
`coframe/db.py` this is false: `DbType.resolve` re-walks and re-appends.
After the first resolution the deep merge has collapsed `C`'s `base`
attribute to the terminal ancestor (`B`'s `base = "A"` overwrote `C`'s
`base = "B"`), so a second invocation walks `C → A` and appends the
terminal ancestor again: the chain grows from `[B, A]` to `[B, A, A]`.
-/

/-- The three-type chain used by the C2 counterexample. -/
def c2_types : List (String × DbType) :=
  [("A", { name := "A", plugin := "p", python_type := some "int" }),
   ("B", { name := "B", plugin := "p",
           attributes := [("base", Val.str "A")] }),
   ("C", { name := "C", plugin := "p",
           attributes := [("base", Val.str "B")] })]

/-- **C2, counterexample.**  For the chain `C → B → A`, the first
resolution gives the 2-element chain `[B, A]`, but resolving the same
type a second time gives the 3-element chain `[B, A, A]` — not 2 elements
as the claim states, so resolution is not idempotent. -/
theorem C2_counterexample :
    ((resolve_type c2_types "C" 10).bind (fun cat1 =>
      (resolve_type cat1 "C" 10).map (fun cat2 =>
        ((dictGet cat1 "C").map DbType.inheritance,
         (dictGet cat2 "C").map DbType.inheritance))))
      = .ok (some ["B", "A"], some ["B", "A", "A"]) := by decide

/-- **C2 (amended).**  For a chain `C → B → A` of three distinct types
(`C` based on `B`, `B` based on `A`, `A` without a base), the first
resolution produces the 2-element chain `[B, A]`; a second invocation on
the already-resolved type appends the terminal ancestor again and
produces the 3-element chain `[B, A, A]`: resolution is not idempotent. -/
theorem C2_second_resolution_appends_again
    (types : List (String × DbType)) (fuel : ℕ) (cn bn an : String)
    (cty bty aty : DbType)
    (hC : dictGet types cn = some cty) (hCname : cty.name = cn)
    (hCinh : cty.inheritance = [])
    (hCbase : dictGet cty.attributes "base" = some (Val.str bn))
    (hB : dictGet types bn = some bty) (hBname : bty.name = bn)
    (hBnodup : (bty.attributes.map Prod.fst).Nodup)
    (hBbase : dictGet bty.attributes "base" = some (Val.str an))
    (hA : dictGet types an = some aty) (hAname : aty.name = an)
    (hAbase : dictGet aty.attributes "base" = none)
    (hba : bn ≠ an) (hac : an ≠ cn) :
    ((resolve_type types cn (fuel + 3)).bind (fun t1 =>
      (resolve_type t1 cn (fuel + 3)).map (fun t2 =>
        ((dictGet t1 cn).map DbType.inheritance,
         (dictGet t2 cn).map DbType.inheritance))))
      = .ok (some [bn, an], some [bn, an, an]) := by
  subst hCname
  subst hBname
  subst hAname
  have hM : dictGet (deep_merge (deep_merge cty.attributes bty.attributes)
      aty.attributes) "base" = some (Val.str aty.name) := by
    rw [dictGet_deep_merge_of_none _ _ _ hAbase]
    exact dictGet_deep_merge_of_some _ _ _ _ hBnodup hBbase
      (fun w hw => Or.inr (by simp [Val.kind]))
  have h1 : resolve_type types cty.name (fuel + 3) =
      .ok (dictSet types cty.name
        { cty with
          inheritance := [bty.name, aty.name],
          attributes := deep_merge (deep_merge cty.attributes bty.attributes)
            aty.attributes,
          python_type := aty.python_type }) := by
    simp only [resolve_type, hC, resolve_type_loop, hCbase, hB,
      hBbase, hA, hAbase, Option.isNone_some,
      Bool.false_eq_true, if_false, hCinh, List.nil_append,
      List.append_assoc, List.singleton_append]
  have hT1C : dictGet (dictSet types cty.name
      { cty with
        inheritance := [bty.name, aty.name],
        attributes := deep_merge (deep_merge cty.attributes bty.attributes)
          aty.attributes,
        python_type := aty.python_type }) cty.name =
      some { cty with
        inheritance := [bty.name, aty.name],
        attributes := deep_merge (deep_merge cty.attributes bty.attributes)
          aty.attributes,
        python_type := aty.python_type } := dictGet_dictSet_self types _ _
  have hT1A : dictGet (dictSet types cty.name
      { cty with
        inheritance := [bty.name, aty.name],
        attributes := deep_merge (deep_merge cty.attributes bty.attributes)
          aty.attributes,
        python_type := aty.python_type }) aty.name = some aty := by
    rw [dictGet_dictSet_other types cty.name aty.name _ (Ne.symm hac)]
    exact hA
  have h2 : resolve_type (dictSet types cty.name
      { cty with
        inheritance := [bty.name, aty.name],
        attributes := deep_merge (deep_merge cty.attributes bty.attributes)
          aty.attributes,
        python_type := aty.python_type }) cty.name (fuel + 3) =
      .ok (dictSet (dictSet types cty.name
        { cty with
          inheritance := [bty.name, aty.name],
          attributes := deep_merge (deep_merge cty.attributes bty.attributes)
            aty.attributes,
          python_type := aty.python_type }) cty.name
        { cty with
          inheritance := [bty.name, aty.name, aty.name],
          attributes := deep_merge (deep_merge (deep_merge cty.attributes
            bty.attributes) aty.attributes) aty.attributes,
          python_type := aty.python_type }) := by
    simp only [resolve_type, hT1C, resolve_type_loop, hM,
      hAbase, hT1A, Option.isNone_some, Bool.false_eq_true, if_false,
      List.append_assoc, List.singleton_append, List.cons_append,
      List.nil_append]
  rw [h1]
  simp only [Except.bind]
  rw [h2]
  simp only [Except.map, hT1C, dictGet_dictSet_self, Option.map_some]
  rfl

/-- **C2, witness** for the amended theorem, instantiated at the concrete
chain `C → B → A` of `c2_types`. -/
theorem C2_second_resolution_appends_again_witness :
    ((resolve_type c2_types "C" (7 + 3)).bind (fun t1 =>
      (resolve_type t1 "C" (7 + 3)).map (fun t2 =>
        ((dictGet t1 "C").map DbType.inheritance,
         (dictGet t2 "C").map DbType.inheritance))))
      = .ok (some ["B", "A"], some ["B", "A", "A"]) :=
  C2_second_resolution_appends_again c2_types 7 "C" "B" "A"
    { name := "C", plugin := "p", attributes := [("base", Val.str "B")] }
    { name := "B", plugin := "p", attributes := [("base", Val.str "A")] }
    { name := "A", plugin := "p", python_type := some "int" }
    (by decide) (by decide) (by decide) (by decide) (by decide) (by decide)
    (by decide) (by decide) (by decide) (by decide) (by decide) (by decide)
    (by decide)

/-!
## Claim C8

The claim: a scalar-vs-scalar merge never aborts, *including scalars of
different kinds such as an integer and a string*.  In
`PluginsManager._recursive_merge` this is false: the runtime-type check
`type(v1) is not type(v2)` raises a `TypeError` before the scalar branch
is ever reached, so an integer overridden by a string aborts the
composition.  For scalars of the same runtime kind the claim's behaviour
holds: equal values are unchanged, differing values are replaced by the
incoming one, and only the non-fatal "Overlapping value" warning is
logged.
-/

/-- **C8, counterexample.**  Merging the scalar string `"on"` over the
scalar integer `1` at the same key aborts with a `TypeError` instead of
overriding with a warning — contradicting the claim that the merge never
aborts for any pair of scalar values. -/
theorem C8_counterexample :
    recursive_merge (fun _ => none) [("setting", Val.int 1)]
      [("setting", Val.str "on")] "second" []
      = .error (.type_error "setting") := by decide

/-- **C8 (amended).**  For two scalars of the same runtime kind at the
same key the merge never aborts: the incoming value wins and exactly one
non-fatal "Overlapping value" warning is logged for that key path (in
particular, equal scalars leave the stored value unchanged).  For two
scalars of different runtime kinds the merge aborts with a `TypeError` at
that key path. -/
theorem C8_scalar_merge (k plugin : String) (v1 v2 : Val)
    (h1 : v1.isScalar = true) (h2 : v2.isScalar = true)
    (hk : v1.kind = v2.kind) :
    (recursive_merge (fun _ => none) [(k, v1)] [(k, v2)] plugin [] =
      .ok ([(k, v2)], [k])) ∧
    (v1 = v2 →
      recursive_merge (fun _ => none) [(k, v1)] [(k, v2)] plugin [] =
        .ok ([(k, v1)], [k])) ∧
    (∀ w1 w2 : Val, w1.isScalar = true → w2.isScalar = true →
      w1.kind ≠ w2.kind →
      recursive_merge (fun _ => none) [(k, w1)] [(k, w2)] plugin [] =
        .error (.type_error k)) := by
  have main : ∀ a b : Val, a.isScalar = true → b.isScalar = true →
      a.kind = b.kind →
      recursive_merge (fun _ => none) [(k, a)] [(k, b)] plugin [] =
        .ok ([(k, b)], [k]) := by
    intro a b ha hb hab
    cases a <;> cases b <;>
      simp_all [Val.isScalar, Val.kind, recursive_merge, merge_entries,
        merge_one, build_key_path, dictGet, dictSet]
  refine ⟨main v1 v2 h1 h2 hk, ?_, ?_⟩
  · intro he
    rw [main v1 v2 h1 h2 hk, he]
  · intro w1 w2 hw1 hw2 hkk
    cases w1 <;> cases w2 <;>
      simp_all [Val.isScalar, Val.kind, recursive_merge, merge_entries,
        merge_one, build_key_path, dictGet, dictSet]

/-- **C8, witness** for the amended theorem: overriding the integer `1`
with the integer `2` succeeds with the incoming value and one warning. -/
theorem C8_scalar_merge_witness :
    recursive_merge (fun _ => none) [("retries", Val.int 1)]
      [("retries", Val.int 2)] "second" []
      = .ok ([("retries", Val.int 2)], ["retries"]) :=
  (C8_scalar_merge "retries" "second" (Val.int 1) (Val.int 2)
    (by decide) (by decide) (by decide)).1

/-!
## Claim C10

Table construction skips every key of the merged `tables` map that starts
with an underscore (such as the injected `_plugin` provenance tags): the
ordered `tables_list` is exactly the list of non-underscore keys in
document order, and the catalog's keys coincide with it.
-/

/-- The loop of `_calc_tables` appends exactly the non-underscore keys of
the remaining document to the accumulators. -/
theorem calc_tables_loop_spec (doc : List (String × Val)) :
    ∀ (ts0 : List (String × DbTable)) (tl0 : List String)
      (ts : List (String × DbTable)) (tl : List String),
      (doc.map Prod.fst).Nodup →
      (∀ kk ∈ doc.map Prod.fst, kk ∉ ts0.map Prod.fst) →
      ts0.map Prod.fst = tl0 →
      calc_tables_loop doc ts0 tl0 = .ok (ts, tl) →
      tl = tl0 ++ (doc.map Prod.fst).filter
        (fun kk => !(str_startswith kk "_")) ∧
      ts.map Prod.fst = tl := by
  induction doc with
  | nil =>
      intro ts0 tl0 ts tl _ _ hkeys hrun
      simp only [calc_tables_loop, Except.ok.injEq, Prod.mk.injEq] at hrun
      simp [← hrun.1, ← hrun.2, hkeys]
  | cons entry rest ih =>
      intro ts0 tl0 ts tl hnd hfresh hkeys hrun
      simp only [List.map_cons, List.nodup_cons] at hnd
      by_cases hu : str_startswith entry.1 "_"
      · simp only [calc_tables_loop, hu, if_true] at hrun
        have := ih ts0 tl0 ts tl hnd.2
          (fun kk hk => hfresh kk (List.mem_cons_of_mem _ hk)) hkeys hrun
        simpa [hu] using this
      · simp only [calc_tables_loop, hu, if_false] at hrun
        match hv : entry.2 with
        | Val.dict d =>
            rw [hv] at hrun
            simp only [] at hrun
            match hmk : DbTable.make entry.1
              (match dictGet d "_plugin" with
               | some (Val.str s) => s
               | _ => "unknown") d with
            | .error e => rw [hmk] at hrun; exact absurd hrun (by simp)
            | .ok table =>
                rw [hmk] at hrun
                have hfresh0 : entry.1 ∉ ts0.map Prod.fst :=
                  hfresh entry.1 (List.mem_cons_self _ _)
                have hset : dictSet ts0 entry.1 table =
                    ts0 ++ [(entry.1, table)] :=
                  dictSet_eq_append_of_not_mem ts0 entry.1 table hfresh0
                have hkeys' : (dictSet ts0 entry.1 table).map Prod.fst =
                    tl0 ++ [entry.1] := by
                  rw [hset]
                  simp [hkeys]
                have hfresh' : ∀ kk ∈ rest.map Prod.fst,
                    kk ∉ (dictSet ts0 entry.1 table).map Prod.fst := by
                  intro kk hk
                  rw [hset]
                  simp only [List.map_append, List.mem_append,
                    List.map_cons, List.map_nil, List.mem_singleton]
                  push_neg
                  refine ⟨hfresh kk (List.mem_cons_of_mem _ hk), ?_⟩
                  intro he
                  exact hnd.1 (he ▸ hk)
                have := ih (dictSet ts0 entry.1 table) (tl0 ++ [entry.1])
                  ts tl hnd.2 hfresh' hkeys' hrun
                refine ⟨?_, this.2⟩
                rw [this.1]
                simp [hu]
        | Val.str s => rw [hv] at hrun; exact absurd hrun (by simp)
        | Val.int n => rw [hv] at hrun; exact absurd hrun (by simp)
        | Val.list l => rw [hv] at hrun; exact absurd hrun (by simp)

/-- **C10.**  When table construction succeeds on a merged `tables` map
with duplicate-free keys, the ordered table list is exactly the list of
keys that do not start with an underscore, in document order, and the
table catalog's keys coincide with that list — so no table is created
for any `_`-prefixed key (in particular not for the injected `_plugin`
provenance tags). -/
theorem C10_underscore_keys_skipped (doc : List (String × Val))
    (hnd : (doc.map Prod.fst).Nodup)
    (hok : (calc_tables doc).isOk = true) :
    (calc_tables doc).map (fun r => r.2) =
      .ok ((doc.map Prod.fst).filter
        (fun kk => !(str_startswith kk "_"))) ∧
    (calc_tables doc).map (fun r => r.1.map Prod.fst) =
      (calc_tables doc).map (fun r => r.2) ∧
    ∀ r nm, calc_tables doc = .ok r → nm ∈ r.2 →
      str_startswith nm "_" = false := by
  match hrun : calc_tables doc with
  | .error e =>
      rw [hrun] at hok
      simp [Except.isOk, Except.toBool] at hok
  | .ok (ts, tl) =>
      have hspec := calc_tables_loop_spec doc [] [] ts tl hnd
        (by intro kk hk; simp) rfl hrun
      have htl : tl = (doc.map Prod.fst).filter
          (fun kk => !(str_startswith kk "_")) := by
        simpa using hspec.1
      refine ⟨?_, ?_, ?_⟩
      · simp [Except.map, htl]
      · simp [Except.map, hspec.2]
      · intro r nm hr hm
        cases hr
        have hmem : nm ∈ tl := hm
        rw [htl] at hmem
        have := List.of_mem_filter hmem
        simpa using this

/-- **C10, witness**: a document with a `_plugin` tag between two tables
yields exactly the two table keys, in order. -/
def c10_doc : List (String × Val) :=
  [("Users", Val.dict [("_plugin", Val.str "core"),
      ("columns", Val.list [Val.dict [("name", Val.str "id"),
        ("type", Val.str "Integer")]])]),
   ("_plugin", Val.str "core"),
   ("Books", Val.dict [("_plugin", Val.str "core"),
      ("columns", Val.list [Val.dict [("name", Val.str "id"),
        ("type", Val.str "Integer")]])])]

theorem C10_underscore_keys_skipped_witness :
    (calc_tables c10_doc).map (fun r => r.2) = .ok ["Users", "Books"] ∧
    (calc_tables c10_doc).map (fun r => r.1.map Prod.fst) =
      .ok ["Users", "Books"] := by
  have h := C10_underscore_keys_skipped c10_doc (by decide) (by decide)
  constructor
  · rw [h.1]; decide
  · rw [h.2.1, h.1]; decide

/-!
## Claim C4

The registered by-name list handler `merge_by_name` merges a redeclared
column into the existing entry in place.
-/

/-- **C4.**  When a later plugin redeclares a column whose (truthy) name
already appears exactly once in the column list, `merge_by_name` merges it
into the existing entry in place: the list keeps its length and all other
entries verbatim, the merged entry's `_plugin` tag names the later plugin,
every attribute the later plugin did not mention keeps its earlier value,
and every attribute it did mention (other than `_plugin`, and excepting
the dict-with-dict case, which deep-merges recursively with the later
plugin's leaves winning) takes the later plugin's value. -/
theorem C4_redeclared_column_merged_in_place
    (pre post : List (List (String × Val)))
    (item new_item : List (String × Val)) (nv : Val) (plugin : String)
    (hnd : (new_item.map Prod.fst).Nodup)
    (hpre : ∀ x ∈ pre, (dictGet x "name" == some nv) = false)
    (hitem : dictGet item "name" = some nv)
    (hnew : dictGet new_item "name" = some nv)
    (hfalsy : nv.falsy = false) :
    merge_by_name (pre ++ item :: post) [new_item] plugin =
      pre ++ dictSet (deep_merge item new_item) "_plugin" (Val.str plugin)
        :: post ∧
    (merge_by_name (pre ++ item :: post) [new_item] plugin).length =
      (pre ++ item :: post).length ∧
    dictGet (dictSet (deep_merge item new_item) "_plugin" (Val.str plugin))
      "_plugin" = some (Val.str plugin) ∧
    (∀ k, k ≠ "_plugin" → dictGet new_item k = none →
      dictGet (dictSet (deep_merge item new_item) "_plugin"
        (Val.str plugin)) k = dictGet item k) ∧
    (∀ k v, k ≠ "_plugin" → dictGet new_item k = some v →
      (∀ w, dictGet item k = some w →
        w.kind ≠ ValKind.dict ∨ v.kind ≠ ValKind.dict) →
      dictGet (dictSet (deep_merge item new_item) "_plugin"
        (Val.str plugin)) k = some v) := by
  have hmain : merge_by_name (pre ++ item :: post) [new_item] plugin =
      pre ++ dictSet (deep_merge item new_item) "_plugin" (Val.str plugin)
        :: post := by
    have hany : (pre ++ item :: post).any
        (fun it => dictGet it "name" == some nv) = true :=
      List.any_eq_true.mpr ⟨item, by simp, by simp [hitem]⟩
    simp only [merge_by_name, List.foldl_cons, List.foldl_nil, hnew,
      hfalsy, Bool.false_eq_true, if_false, hany, if_true]
    exact update_first_append _ _ pre post item hpre (by simp [hitem])
  refine ⟨hmain, ?_, dictGet_dictSet_self _ _ _, ?_, ?_⟩
  · rw [hmain]; simp
  · intro k hk hkn
    rw [dictGet_dictSet_other _ _ _ _ (Ne.symm hk),
      dictGet_deep_merge_of_none _ _ _ hkn]
  · intro k v hk hv hcond
    rw [dictGet_dictSet_other _ _ _ _ (Ne.symm hk)]
    exact dictGet_deep_merge_of_some _ _ _ _ hnd hv hcond

/-- **C4, witness**: plugin "second" redeclares column `qty` with one new
attribute `label`; the entry keeps `type` from plugin "first", gains
`label`, and its `_plugin` tag moves to "second"; the `id` column is
untouched and the list length is unchanged. -/
theorem C4_redeclared_column_merged_in_place_witness :
    merge_by_name
      [[("name", Val.str "id"), ("type", Val.str "Integer")],
       [("name", Val.str "qty"), ("type", Val.str "Integer"),
        ("_plugin", Val.str "first")]]
      [[("name", Val.str "qty"), ("label", Val.str "Quantity")]]
      "second" =
      [[("name", Val.str "id"), ("type", Val.str "Integer")],
       [("name", Val.str "qty"), ("type", Val.str "Integer"),
        ("_plugin", Val.str "second"), ("label", Val.str "Quantity")]] :=
  (C4_redeclared_column_merged_in_place
    [[("name", Val.str "id"), ("type", Val.str "Integer")]] []
    [("name", Val.str "qty"), ("type", Val.str "Integer"),
     ("_plugin", Val.str "first")]
    [("name", Val.str "qty"), ("label", Val.str "Quantity")]
    (Val.str "qty") "second" (by decide) (by decide) (by decide)
    (by decide) (by decide)).1.trans (by decide)

/-!
## Claim C5

Composite-type expansion in Pass 1 of `_calc_columns`, and the duplicate
column check.
-/

/-- The composite type used by the C5 witness: `Address` with three
embedded columns. -/
def c5_addr : DbType :=
  { name := "Address", plugin := "base",
    columns :=
      [{ attributes := [("name", Val.str "street"),
           ("type", Val.str "String")], name := "street" },
       { attributes := [("name", Val.str "city"),
           ("type", Val.str "String")], name := "city" },
       { attributes := [("name", Val.str "zip"),
           ("type", Val.str "String")], name := "zip" }] }

/-- The type catalog of the C5 witness. -/
def c5_types : List (String × DbType) := [("Address", c5_addr)]

/-- The raw table column of the C5 witness: type `Address`, prefix
`ship_`. -/
def c5_col : DbColumn :=
  { attributes := [("name", Val.str "ship"), ("type", Val.str "Address"),
      ("prefix", Val.str "ship_")],
    name := "ship", db_type := some "Address" }

/-- **C5.**  A table column resolved to a composite type with `N`
embedded columns and carrying a `prefix` string expands to exactly `N`
columns, one per embedded column, named `prefix ++ name` in embedded
order; and any successful table column construction yields duplicate-free
column names (two same-named columns after expansion would have hit the
duplicate-column error). -/
theorem C5_composite_type_expansion
    (types : List (String × DbType)) (tables : List (String × DbTable))
    (table_name pfx tyname : String) (ty : DbType) (col : DbColumn)
    (hdb : col.db_type = some tyname)
    (hty : dictGet types tyname = some ty)
    (hne : ty.columns.isEmpty = false)
    (hpfx : dictGet col.attributes "prefix" = some (Val.str pfx))
    (hnames : ∀ tc ∈ ty.columns,
      dictGet tc.attributes "name" = some (Val.str tc.name)) :
    (∀ cs, process_raw_column types tables table_name col = .ok cs →
      cs.map (fun c : DbColumn => c.name) =
        ty.columns.map (fun tc : DbColumn => pfx ++ tc.name) ∧
      cs.length = ty.columns.length) ∧
    (∀ (raws : List (List (String × Val))) (cols : List DbColumn),
      calc_table_columns types tables table_name raws = .ok cols →
      (cols.map (fun c : DbColumn => c.name)).Nodup) := by
  constructor
  · intro cs hcs
    simp only [process_raw_column, hdb, hty, hne, Bool.false_eq_true,
      if_false, hpfx] at hcs
    have hmap := expand_type_cols_names types tables table_name pfx
      ty.columns cs hnames hcs
    refine ⟨hmap, ?_⟩
    have := congrArg List.length hmap
    simpa using this
  · intro raws cols h
    exact first_duplicate_none cols
      (process_table_cols_clean types tables table_name raws [] cols rfl h)

/-- **C5, witness**: the `Address` composite with embedded columns
`street`, `city`, `zip` used with prefix `ship_` expands to exactly the
three columns `ship_street`, `ship_city`, `ship_zip`, in order. -/
theorem C5_composite_type_expansion_witness :
    (process_raw_column c5_types [] "Order" c5_col).map
      (fun cs => cs.map (fun c : DbColumn => c.name)) =
      .ok ["ship_street", "ship_city", "ship_zip"] := by
  have h := C5_composite_type_expansion c5_types [] "Order" "ship_"
    "Address" c5_addr c5_col rfl (by decide) (by decide) (by decide)
    (by decide)
  have hok : (process_raw_column c5_types [] "Order" c5_col).isOk = true := by
    decide
  match hrun : process_raw_column c5_types [] "Order" c5_col with
  | .error e =>
      rw [hrun] at hok
      simp [Except.isOk, Except.toBool] at hok
  | .ok cs =>
      have hmap := (h.1 cs hrun).1
      simp only [Except.map, hmap]
      decide

/-!
## Claim C1

Order-independence of foreign-key type resolution: Pass 2 copies the
target column's resolved type onto the referencing column against the
live catalog, and a plain typed target column is left untouched by
Pass 2, so the copied type is the same whether the target table is
processed before or after the referencing table.
-/

/-- The Pass-2 invariant about the *target* table `T`: the catalog maps
`T` to a table having a column named `id`, and every column of that table
named `id` is a plain typed column — no `foreign_key` attribute and
resolved type `τ`. -/
def target_resolved (T id τ : String)
    (tables : List (String × DbTable)) : Prop :=
  ∃ t, dictGet tables T = some t ∧
    (∃ c ∈ t.columns, c.name = id) ∧
    ∀ c ∈ t.columns, c.name = id →
      dictGet c.attributes "foreign_key" = none ∧ c.db_type = some τ

/-- `resolve_foreign` never changes a column's name or attributes. -/
theorem resolve_foreign_frame (col : DbColumn)
    (tables : List (String × DbTable)) (c' : DbColumn)
    (h : col.resolve_foreign tables = .ok c') :
    c'.name = col.name ∧ c'.attributes = col.attributes := by
  simp only [DbColumn.resolve_foreign] at h
  repeat' split at h
  all_goals first
    | exact (Except.noConfusion h)
    | (injection h with h
       subst h
       exact ⟨rfl, rfl⟩)

/-- `resolve_foreign` is the identity on a column with no `foreign_key`
attribute. -/
theorem resolve_foreign_no_fk (col : DbColumn)
    (tables : List (String × DbTable))
    (h : dictGet col.attributes "foreign_key" = none) :
    col.resolve_foreign tables = .ok col := by
  simp [DbColumn.resolve_foreign, h]

/-- On a column with a truthy `foreign_key` attribute and a Pass-1 stub
pointing at `T.id`, `resolve_foreign` copies the target column's resolved
type. -/
theorem resolve_foreign_hits_target (col : DbColumn)
    (tables : List (String × DbTable)) (T id τ : String) (fkv : Val)
    (hfk : dictGet col.attributes "foreign_key" = some fkv)
    (hfalsy : fkv.falsy = false)
    (hft : col.fk_table = some T) (hfi : col.fk_id = some id)
    (htgt : target_resolved T id τ tables) :
    col.resolve_foreign tables = .ok { col with db_type := some τ } := by
  obtain ⟨t, hT, ⟨c0, hc0mem, hc0name⟩, hP⟩ := htgt
  obtain ⟨c, hc⟩ : ∃ c, t.columns.find? (fun c => c.name == id) = some c :=
    Option.isSome_iff_exists.mp (List.find?_isSome.mpr
      ⟨c0, hc0mem, by simp [hc0name]⟩)
  have hcname : c.name = id := by simpa using List.find?_some hc
  have hdb := (hP c (List.mem_of_find?_eq_some hc) hcname).2
  simp only [DbColumn.resolve_foreign, hfk, hfalsy, Bool.false_eq_true,
    if_false, hft, hfi, hT, hc, hdb]

/-- Updating a catalog entry other than `T` preserves the target
invariant. -/
theorem target_resolved_dictSet (T id τ tn : String) (x : DbTable)
    (tables : List (String × DbTable)) (h : tn ≠ T)
    (ht : target_resolved T id τ tables) :
    target_resolved T id τ (dictSet tables tn x) := by
  obtain ⟨t, h1, h2, h3⟩ := ht
  exact ⟨t, by rw [dictGet_dictSet_other _ _ _ _ h]; exact h1, h2, h3⟩

/-- Processing a table other than `T` preserves the target invariant. -/
theorem pass2_cols_preserves_target_other (T id τ tn : String)
    (h : tn ≠ T) :
    ∀ (cur done : List DbColumn) (tables tables' : List (String × DbTable)),
      target_resolved T id τ tables →
      pass2_cols tn done cur tables = .ok tables' →
      target_resolved T id τ tables' := by
  intro cur
  induction cur with
  | nil =>
      intro done tables tables' ht hrun
      simp only [pass2_cols, Except.ok.injEq] at hrun
      subst hrun
      exact ht
  | cons c rest ih =>
      intro done tables tables' ht hrun
      simp only [pass2_cols] at hrun
      split at hrun
      · exact (Except.noConfusion hrun)
      · split at hrun
        · exact (Except.noConfusion hrun)
        · exact ih _ _ _ (target_resolved_dictSet T id τ tn _ _ h ht) hrun

/-- Processing the target table itself also preserves the target
invariant: its `id` column has no `foreign_key` attribute, so
`resolve_foreign` leaves it alone. -/
theorem pass2_cols_on_target (T id τ : String) :
    ∀ (cur done : List DbColumn) (tables tables' : List (String × DbTable))
      (t0 : DbTable),
      dictGet tables T = some t0 →
      t0.columns = done ++ cur →
      (∀ c ∈ done ++ cur, c.name = id →
        dictGet c.attributes "foreign_key" = none ∧ c.db_type = some τ) →
      (∃ c ∈ done ++ cur, c.name = id) →
      pass2_cols T done cur tables = .ok tables' →
      target_resolved T id τ tables' := by
  intro cur
  induction cur with
  | nil =>
      intro done tables tables' t0 hT hcols hP hE hrun
      simp only [pass2_cols, Except.ok.injEq] at hrun
      subst hrun
      refine ⟨t0, hT, ?_, ?_⟩
      · rw [hcols]; exact hE
      · rw [hcols]; exact hP
  | cons c rest ih =>
      intro done tables tables' t0 hT hcols hP hE hrun
      simp only [pass2_cols] at hrun
      split at hrun
      · exact (Except.noConfusion hrun)
      · rename_i c' hres
        split at hrun
        · exact (Except.noConfusion hrun)
        · rename_i t ht
          rw [hT] at ht
          injection ht with ht
          subst ht
          have hf := resolve_foreign_frame c tables c' hres
          have hPc' : c'.name = id →
              dictGet c'.attributes "foreign_key" = none ∧
              c'.db_type = some τ := by
            intro hn
            rw [hf.1] at hn
            have hnofk := (hP c (by simp) hn).1
            rw [resolve_foreign_no_fk c tables hnofk] at hres
            injection hres with hres
            subst hres
            exact hP c (by simp) hn
          refine ih (done ++ [c']) _ tables' _ (dictGet_dictSet_self _ _ _)
            (by simp) ?_ ?_ hrun
          · intro x hx hxn
            simp only [List.append_assoc, List.singleton_append,
              List.mem_append, List.mem_cons] at hx
            rcases hx with hx | hx | hx
            · exact hP x (by simp [hx]) hxn
            · subst hx; exact hPc' hxn
            · exact hP x (by simp [hx]) hxn
          · obtain ⟨x, hx, hxn⟩ := hE
            simp only [List.mem_append, List.mem_cons] at hx
            rcases hx with hx | hx | hx
            · exact ⟨x, by simp [hx], hxn⟩
            · refine ⟨c', by simp, ?_⟩
              rw [hf.1, ← hx]
              exact hxn
            · exact ⟨x, by simp [hx], hxn⟩

/-- The whole of Pass 2 preserves the target invariant, wherever the
target table sits in the processing order. -/
theorem pass2_phase_preserves_target (T id τ : String) :
    ∀ (order : List String) (tables tables' : List (String × DbTable)),
      target_resolved T id τ tables →
      pass2_phase order tables = .ok tables' →
      target_resolved T id τ tables' := by
  intro order
  induction order with
  | nil =>
      intro tables tables' ht hrun
      simp only [pass2_phase, Except.ok.injEq] at hrun
      subst hrun
      exact ht
  | cons tn rest ih =>
      intro tables tables' ht hrun
      simp only [pass2_phase] at hrun
      split at hrun
      · exact ih _ _ ht hrun
      · rename_i t htn
        split at hrun
        · exact (Except.noConfusion hrun)
        · rename_i tables2 hcols
          split at hrun
          · exact (Except.noConfusion hrun)
          · rename_i t' ht'
            split at hrun
            · exact (Except.noConfusion hrun)
            · refine ih _ _ ?_ hrun
              by_cases htn' : tn = T
              · subst htn'
                obtain ⟨t0, hT0, hEx, hPx⟩ := ht
                rw [htn] at hT0
                injection hT0 with hT0
                subst hT0
                exact pass2_cols_on_target tn id τ t.columns [] tables
                  tables2 t htn rfl (by simpa using hPx)
                  (by simpa using hEx) hcols
              · exact pass2_cols_preserves_target_other T id τ tn htn'
                  _ _ _ _ ht hcols

/-- `pass2_cols` never touches catalog entries other than the table being
processed. -/
theorem pass2_cols_other_entry (tn k : String) (h : k ≠ tn) :
    ∀ (cur done : List DbColumn) (tables tables' : List (String × DbTable)),
      pass2_cols tn done cur tables = .ok tables' →
      dictGet tables' k = dictGet tables k := by
  intro cur
  induction cur with
  | nil =>
      intro done tables tables' hrun
      simp only [pass2_cols, Except.ok.injEq] at hrun
      subst hrun
      rfl
  | cons c rest ih =>
      intro done tables tables' hrun
      simp only [pass2_cols] at hrun
      split at hrun
      · exact (Except.noConfusion hrun)
      · split at hrun
        · exact (Except.noConfusion hrun)
        · exact (ih _ _ _ hrun).trans
            (dictGet_dictSet_other tables tn k _ (Ne.symm h))

/-- Pass 2 never touches the entry of a table that is not in the
processing order. -/
theorem pass2_phase_other_entries (k : String) :
    ∀ (order : List String) (tables tables' : List (String × DbTable)),
      k ∉ order →
      pass2_phase order tables = .ok tables' →
      dictGet tables' k = dictGet tables k := by
  intro order
  induction order with
  | nil =>
      intro tables tables' _ hrun
      simp only [pass2_phase, Except.ok.injEq] at hrun
      subst hrun
      rfl
  | cons tn rest ih =>
      intro tables tables' hk hrun
      simp only [List.mem_cons] at hk
      push_neg at hk
      simp only [pass2_phase] at hrun
      split at hrun
      · exact ih _ _ hk.2 hrun
      · split at hrun
        · exact (Except.noConfusion hrun)
        · rename_i tables2 hcols
          split at hrun
          · exact (Except.noConfusion hrun)
          · split at hrun
            · exact (Except.noConfusion hrun)
            · exact (ih _ _ hk.2 hrun).trans
                (pass2_cols_other_entry tn k hk.1 _ _ _ _ hcols)

/-- Pass 2 over a concatenated order is Pass 2 over the first part, then
the second. -/
theorem pass2_phase_append :
    ∀ (l1 l2 : List String) (tables tables' : List (String × DbTable)),
      pass2_phase (l1 ++ l2) tables = .ok tables' →
      ∃ mid, pass2_phase l1 tables = .ok mid ∧
        pass2_phase l2 mid = .ok tables' := by
  intro l1
  induction l1 with
  | nil =>
      intro l2 tables tables' hrun
      exact ⟨tables, rfl, hrun⟩
  | cons tn rest ih =>
      intro l2 tables tables' hrun
      simp only [List.cons_append, pass2_phase] at hrun ⊢
      split at hrun
      · exact ih _ _ _ hrun
      · split at hrun
        · exact (Except.noConfusion hrun)
        · split at hrun
          · exact (Except.noConfusion hrun)
          · split at hrun
            · exact (Except.noConfusion hrun)
            · exact ih _ _ _ hrun

/-- Processing the referencing table `R` under the target invariant: every
column named `cname` (carrying a truthy `foreign_key` and the Pass-1 stub
`T.id`) comes out with the target's resolved type `τ`. -/
theorem pass2_cols_on_ref (T id τ R cname : String) (hRT : R ≠ T) :
    ∀ (cur done : List DbColumn) (tables tables' : List (String × DbTable))
      (t0 : DbTable),
      target_resolved T id τ tables →
      dictGet tables R = some t0 →
      t0.columns = done ++ cur →
      (∀ c ∈ done, c.name = cname → c.db_type = some τ) →
      (∀ c ∈ cur, c.name = cname →
        (dictGet c.attributes "foreign_key").map Val.falsy = some false ∧
        c.fk_table = some T ∧ c.fk_id = some id) →
      (∃ c ∈ done ++ cur, c.name = cname) →
      pass2_cols R done cur tables = .ok tables' →
      ∃ t, dictGet tables' R = some t ∧
        (∃ c ∈ t.columns, c.name = cname) ∧
        ∀ c ∈ t.columns, c.name = cname → c.db_type = some τ := by
  intro cur
  induction cur with
  | nil =>
      intro done tables tables' t0 htgt hR hcols hdone hcur hE hrun
      simp only [pass2_cols, Except.ok.injEq] at hrun
      subst hrun
      refine ⟨t0, hR, ?_, ?_⟩
      · rw [hcols]; exact hE
      · rw [hcols]
        intro x hx hxn
        exact hdone x (by simpa using hx) hxn
  | cons c rest ih =>
      intro done tables tables' t0 htgt hR hcols hdone hcur hE hrun
      simp only [pass2_cols] at hrun
      split at hrun
      · exact (Except.noConfusion hrun)
      · rename_i c' hres
        split at hrun
        · exact (Except.noConfusion hrun)
        · rename_i t ht
          rw [hR] at ht
          injection ht with ht
          subst ht
          have hf := resolve_foreign_frame c tables c' hres
          have hc'P : c'.name = cname → c'.db_type = some τ := by
            intro hn
            rw [hf.1] at hn
            obtain ⟨hmap, h3, h4⟩ := hcur c (by simp) hn
            cases hfk : dictGet c.attributes "foreign_key" with
            | none => rw [hfk] at hmap; exact (Option.noConfusion hmap)
            | some fkv =>
                rw [hfk] at hmap
                have hmap2 : fkv.falsy = false := by simpa using hmap
                rw [resolve_foreign_hits_target c tables T id τ fkv hfk
                  hmap2 h3 h4 htgt] at hres
                injection hres with hres
                subst hres
                rfl
          refine ih (done ++ [c']) _ tables' _
            (target_resolved_dictSet T id τ R _ tables hRT htgt)
            (dictGet_dictSet_self _ _ _) (by simp) ?_ ?_ ?_ hrun
          · intro x hx hxn
            simp only [List.mem_append, List.mem_singleton] at hx
            rcases hx with hx | hx
            · exact hdone x hx hxn
            · subst hx; exact hc'P hxn
          · intro x hx hxn
            exact hcur x (by simp [hx]) hxn
          · obtain ⟨x, hx, hxn⟩ := hE
            simp only [List.mem_append, List.mem_cons] at hx
            rcases hx with hx | hx | hx
            · exact ⟨x, by simp [hx], hxn⟩
            · exact ⟨c', by simp, by rw [hf.1, ← hx]; exact hxn⟩
            · exact ⟨x, by simp [hx], hxn⟩

/-- **C1.**  After Pass 2 over any processing order containing the
referencing table `R`, a column of `R` that carries a truthy
`foreign_key` with the Pass-1 stub `T.id` ends up with exactly the
target column's resolved type `τ` — wherever the target table `T` sits
relative to `R` in the order (before `R`, after `R`, in `pre` or in
`post`), since a plain typed target column is never changed by Pass 2. -/
theorem C1_fk_type_independent_of_table_order
    (pre post : List String) (T id τ R cname : String)
    (tables tables' : List (String × DbTable)) (rt : DbTable)
    (hRT : R ≠ T) (hRpre : R ∉ pre) (hRpost : R ∉ post)
    (htgt : target_resolved T id τ tables)
    (hR : dictGet tables R = some rt)
    (hQ : ∀ c ∈ rt.columns, c.name = cname →
      (dictGet c.attributes "foreign_key").map Val.falsy = some false ∧
      c.fk_table = some T ∧ c.fk_id = some id)
    (hEx : ∃ c ∈ rt.columns, c.name = cname)
    (hrun : pass2_phase (pre ++ R :: post) tables = .ok tables') :
    ∃ rt', dictGet tables' R = some rt' ∧
      (∃ c ∈ rt'.columns, c.name = cname) ∧
      ∀ c ∈ rt'.columns, c.name = cname → c.db_type = some τ := by
  obtain ⟨mid1, hpre, hrest⟩ := pass2_phase_append pre (R :: post) tables
    tables' hrun
  have htgt1 : target_resolved T id τ mid1 :=
    pass2_phase_preserves_target T id τ pre tables mid1 htgt hpre
  have hRmid : dictGet mid1 R = some rt :=
    (pass2_phase_other_entries R pre tables mid1 hRpre hpre).trans hR
  simp only [pass2_phase, hRmid] at hrest
  split at hrest
  · exact (Except.noConfusion hrest)
  · rename_i mid2 hcols
    split at hrest
    · exact (Except.noConfusion hrest)
    · split at hrest
      · exact (Except.noConfusion hrest)
      · obtain ⟨t, h1, h2, h3⟩ := pass2_cols_on_ref T id τ R cname hRT
          rt.columns [] mid1 mid2 rt htgt1 hRmid rfl (by simp) hQ
          (by simpa using hEx) hcols
        exact ⟨t, (pass2_phase_other_entries R post mid2 tables' hRpost
          hrest).trans h1, h2, h3⟩

/-- The target table of the C1 witness: `Orders` with a plain `id` column
resolved to `Integer`. -/
def c1_id_col : DbColumn :=
  { attributes := [("name", Val.str "id"), ("type", Val.str "Integer")],
    name := "id",
    db_type := some "Integer" }

def c1_orders : DbTable :=
  { name := "Orders", table_name := "orders", columns := [c1_id_col] }

/-- The referencing table of the C1 witness: `LineItem` with an
`order_id` column carrying the Pass-1 foreign-key stub to `Orders.id`. -/
def c1_order_id_col : DbColumn :=
  { attributes := [("name", Val.str "order_id"),
      ("foreign_key", Val.dict [("target", Val.str "Orders.id")])],
    name := "order_id",
    fk_table := some "Orders",
    fk_id := some "id" }

def c1_lineitem : DbTable :=
  { name := "LineItem", table_name := "lineitem",
    columns := [c1_order_id_col] }

/-- The catalog of the C1 witness, with `LineItem` declared (and
processed) *before* its target `Orders`. -/
def c1_tables : List (String × DbTable) :=
  [("LineItem", c1_lineitem), ("Orders", c1_orders)]

/-- **C1, witness**: with the referencing table processed first
(`["LineItem", "Orders"]`), Pass 2 still resolves `order_id` to the
target's type `Integer`. -/
theorem C1_fk_type_independent_of_table_order_witness :
    ∃ ts rt, pass2_phase ["LineItem", "Orders"] c1_tables = .ok ts ∧
      dictGet ts "LineItem" = some rt ∧
      (∃ c ∈ rt.columns, c.name = "order_id") ∧
      ∀ c ∈ rt.columns, c.name = "order_id" →
        c.db_type = some "Integer" := by
  have hok : (pass2_phase ["LineItem", "Orders"] c1_tables).isOk = true := by
    decide
  match hrun : pass2_phase ["LineItem", "Orders"] c1_tables with
  | .error e =>
      rw [hrun] at hok
      simp [Except.isOk, Except.toBool] at hok
  | .ok ts =>
      obtain ⟨rt, h1, h2, h3⟩ := C1_fk_type_independent_of_table_order
        [] ["Orders"] "Orders" "id" "Integer" "LineItem" "order_id"
        c1_tables ts c1_lineitem (by decide) (by decide) (by decide)
        ⟨c1_orders, by decide, by decide, by decide⟩ (by decide)
        (by decide) (by decide) hrun
      exact ⟨ts, rt, rfl, h1, h2, h3⟩

/-!
## Correctness of the dependency sorter (claims C3 and C7)
-/

/-- In an assoc list with duplicate-free keys, entries are determined by
their key. -/
theorem nodup_keys_eq {α β : Type} (l : List (α × β))
    (h : (l.map Prod.fst).Nodup) (p q : α × β) (hp : p ∈ l) (hq : q ∈ l)
    (hpq : p.1 = q.1) : p = q := by
  induction l with
  | nil => simp at hp
  | cons a t ih =>
      simp only [List.map_cons, List.nodup_cons] at h
      simp only [List.mem_cons] at hp hq
      rcases hp with hp | hp <;> rcases hq with hq | hq
      · rw [hp, hq]
      · exfalso
        have hm : q.1 ∈ t.map Prod.fst := List.mem_map_of_mem Prod.fst hq
        rw [← hpq, hp] at hm
        exact h.1 hm
      · exfalso
        have hm : p.1 ∈ t.map Prod.fst := List.mem_map_of_mem Prod.fst hp
        rw [hpq, hq] at hm
        exact h.1 hm
      · exact ih h.2 hp hq

/-- `takeWhile (· != x)` over an extended list, when `x` occurs in the
first part. -/
theorem takeWhile_append_of_mem (l l2 : List String) (x : String)
    (hx : x ∈ l) :
    (l ++ l2).takeWhile (fun k => k != x) =
      l.takeWhile (fun k => k != x) := by
  induction l with
  | nil => simp at hx
  | cons a t ih =>
      by_cases hax : a = x
      · subst hax
        simp [List.takeWhile_cons]
      · have hba : (a != x) = true := bne_iff_ne.mpr hax
        simp only [List.mem_cons] at hx
        rcases hx with hx | hx
        · exact absurd hx.symm hax
        · simp [List.takeWhile_cons, hba, ih hx]

/-- `takeWhile (· != x)` of `l ++ x :: l2` is `l` when `x ∉ l`. -/
theorem takeWhile_append_self (l l2 : List String) (x : String)
    (hx : x ∉ l) :
    (l ++ x :: l2).takeWhile (fun k => k != x) = l := by
  induction l with
  | nil => simp [List.takeWhile]
  | cons a t ih =>
      simp only [List.mem_cons] at hx
      push_neg at hx
      have hba : (a != x) = true := bne_iff_ne.mpr (Ne.symm hx.1)
      simp [List.takeWhile_cons, hba, ih hx.2]

/-- A member of a `takeWhile` prefix is a member of the list. -/
theorem takeWhile_mem (l : List String) (p : String → Bool) (a : String)
    (h : a ∈ l.takeWhile p) : a ∈ l := by
  induction l with
  | nil => simpa using h
  | cons b t ih =>
      rw [List.takeWhile_cons] at h
      by_cases hb : p b = true
      · simp only [hb, if_true, List.mem_cons] at h
        rcases h with h | h
        · exact List.mem_cons.mpr (Or.inl h)
        · exact List.mem_cons.mpr (Or.inr (ih h))
      · simp [hb] at h

/-- Membership in the `(· != x)`-prefix forces a strictly smaller index
than `x`'s. -/
theorem indexOf_lt_of_mem_takeWhile (l : List String) (x d : String)
    (hd : d ∈ l.takeWhile (fun k => k != x)) (hx : x ∈ l) :
    l.indexOf d < l.indexOf x := by
  induction l with
  | nil => simp at hd
  | cons a t ih =>
      by_cases hax : a = x
      · subst hax
        simp [List.takeWhile] at hd
      · have hxt : x ∈ t := by
          rcases List.mem_cons.mp hx with h | h
          · exact absurd h.symm hax
          · exact h
        have hba : (a != x) = true := bne_iff_ne.mpr hax
        rw [List.takeWhile_cons] at hd
        simp only [hba, if_true, List.mem_cons] at hd
        by_cases had : a = d
        · subst had
          rw [List.indexOf_cons_self]
          rw [List.indexOf_cons_ne _ (by exact hax)]
          omega
        · have hdt : d ∈ t.takeWhile (fun k => k != x) := by
            rcases hd with hd | hd
            · exact absurd hd.symm had
            · exact hd
          rw [List.indexOf_cons_ne _ (by exact had),
            List.indexOf_cons_ne _ (by exact hax)]
          exact Nat.succ_lt_succ (ih hdt hxt)

/-- From any start inside a finite set in which every element has an
`r`-successor inside the set, some element on an `r`-cycle is reachable
(pigeonhole on the iterated successor). -/
theorem reach_cycle_of_succ {r : String → String → Prop}
    (L : List String) (hstep : ∀ x ∈ L, ∃ y ∈ L, r x y) (k : String)
    (hk : k ∈ L) :
    ∃ c, Relation.ReflTransGen r k c ∧ Relation.TransGen r c c := by
  classical
  choose f hf1 hf2 using hstep
  let g : ℕ → {x // x ∈ L} :=
    fun n => Nat.rec (motive := fun _ => {x // x ∈ L}) ⟨k, hk⟩
      (fun _ p => ⟨f p.1 p.2, hf1 p.1 p.2⟩) n
  have hgs : ∀ n, r (g n).1 (g (n + 1)).1 := fun n => hf2 _ (g n).2
  have hchain : ∀ m n, m < n →
      Relation.TransGen r (g m).1 (g n).1 := by
    intro m n
    induction n with
    | zero => intro h; omega
    | succ n ih =>
        intro hmn
        rcases Nat.lt_succ_iff_lt_or_eq.mp hmn with h | h
        · exact (ih h).tail (hgs n)
        · subst h
          exact Relation.TransGen.single (hgs m)
  have hrefl : ∀ n, Relation.ReflTransGen r k (g n).1 := by
    intro n
    induction n with
    | zero => exact Relation.ReflTransGen.refl
    | succ n ih => exact ih.tail (hgs n)
  have hmaps : ∀ i ∈ Finset.range (L.length + 1),
      (g i).1 ∈ L.toFinset := by
    intro i _
    exact List.mem_toFinset.mpr (g i).2
  have hcard : L.toFinset.card < (Finset.range (L.length + 1)).card := by
    rw [Finset.card_range]
    exact Nat.lt_succ_of_le (List.toFinset_card_le L)
  obtain ⟨m, hm, n, hn, hne, heq⟩ :=
    Finset.exists_ne_map_eq_of_card_lt_of_maps_to hcard hmaps
  rcases Nat.lt_or_ge m n with h | h
  · have ht := hchain m n h
    rw [← heq] at ht
    exact ⟨(g m).1, hrefl m, ht⟩
  · have hnm : n < m := Nat.lt_of_le_of_ne h (Ne.symm hne)
    have ht := hchain n m hnm
    rw [heq] at ht
    exact ⟨(g n).1, hrefl n, ht⟩

/-- Erasing `current` from a dependency set that already excludes `res`
gives the set excluding `res ++ [current]` (dependency sets are
duplicate-free). -/
theorem filter_erase_step (s : List String) (hs : s.Nodup)
    (res : List String) (current : String) :
    (s.filter (fun d => !(res.contains d))).erase current
      = s.filter (fun d => !((res ++ [current]).contains d)) := by
  rw [List.Nodup.erase_eq_filter (hs.filter _) current, List.filter_filter]
  apply List.filter_congr
  intro d _
  by_cases hc : d = current <;> by_cases hr : d ∈ res <;>
    simp [hc, hr]

/-- Membership in `kahn_newly_free` over the live map, phrased over the
original map `D0`. -/
theorem mem_kahn_newly_free (D0 : List (String × List String))
    (res : List String) (current nf : String) :
    nf ∈ kahn_newly_free
        (D0.map (fun p => (p.1, p.2.filter (fun d => !(res.contains d)))))
        current ↔
      ∃ p ∈ D0, p.1 = nf ∧
        current ∈ p.2.filter (fun d => !(res.contains d)) ∧
        (p.2.filter (fun d => !(res.contains d))).erase current = [] := by
  simp only [kahn_newly_free, List.mem_map, List.mem_filter,
    Bool.and_eq_true, decide_eq_true_eq]
  constructor
  · rintro ⟨q, ⟨⟨p, hp, rfl⟩, h1, h2⟩, rfl⟩
    refine ⟨p, hp, rfl, ?_, ?_⟩
    · simpa using h1
    · simpa using h2
  · rintro ⟨p, hp, rfl, h1, h2⟩
    refine ⟨(p.1, p.2.filter (fun d => !(res.contains d))),
      ⟨⟨p, hp, rfl⟩, ?_, ?_⟩, rfl⟩
    · simpa using h1
    · simpa using h2

/-- A nonempty list emptied by one `erase` was that singleton. -/
theorem eq_singleton_of_erase_nil (s : List String) (current : String)
    (hne : s ≠ []) (he : s.erase current = []) : s = [current] := by
  cases s with
  | nil => exact absurd rfl hne
  | cons a t =>
      by_cases hac : a = current
      · subst hac
        rw [List.erase_cons_head] at he
        rw [he]
      · rw [List.erase_cons] at he
        simp only [beq_iff_eq, hac, if_false] at he
        exact absurd he (by simp)

/-- A filter is empty exactly when its predicate fails everywhere. -/
theorem filter_nil_iff (s : List String) (q : String → Bool) :
    s.filter q = [] ↔ ∀ d ∈ s, q d = false := by
  induction s with
  | nil => simp
  | cons a t ih =>
      by_cases ha : q a = true <;>
        simp [List.filter_cons, ha, ih]

/-- The terminated Kahn loop: conclusions at an empty queue. -/
theorem kahn_loop_nil_spec (D0 deps : List (String × List String))
    (res : List String)
    (h2 : res.Nodup) (h3 : ∀ k ∈ res, k ∈ D0.map Prod.fst)
    (h4 : ∀ p ∈ D0, (p.2.filter (fun d => !(res.contains d)) = [] ↔
      p.1 ∈ res))
    (h5 : ∀ p ∈ D0, p.1 ∈ res → ∀ d ∈ p.2,
      d ∈ res.takeWhile (fun k => k != p.1)) :
    (kahn_loop deps [] res).Nodup ∧
    (∀ k ∈ kahn_loop deps [] res, k ∈ D0.map Prod.fst) ∧
    (∀ p ∈ D0, p.1 ∈ kahn_loop deps [] res → ∀ d ∈ p.2,
      d ∈ (kahn_loop deps [] res).takeWhile (fun k => k != p.1)) ∧
    (∀ p ∈ D0, p.1 ∉ kahn_loop deps [] res →
      ∃ d ∈ p.2, d ∉ kahn_loop deps [] res) := by
  have hnil : kahn_loop deps [] res = res := by rw [kahn_loop]
  rw [hnil]
  refine ⟨h2, h3, h5, ?_⟩
  intro p hp hnp
  have hne : p.2.filter (fun d => !(res.contains d)) ≠ [] :=
    fun he => hnp ((h4 p hp).mp he)
  by_contra hcon
  push_neg at hcon
  apply hne
  rw [filter_nil_iff]
  intro d hd
  simp [hcon d hd]

/-- The invariant-carrying correctness lemma for `kahn_loop`, by strong
induction on the combined measure (total dependency size plus queue
length).  `D0` is the initial deduplicated dependency map; the live map
always consists of the original sets minus the already-emitted plugins,
the emitted-or-queued plugins are exactly those whose live set is empty,
and every emitted plugin's dependencies precede it in the result. -/
theorem kahn_loop_spec (D0 : List (String × List String))
    (hK : (D0.map Prod.fst).Nodup)
    (hdedup : ∀ p ∈ D0, p.2.Nodup) :
    ∀ (n : ℕ) (deps : List (String × List String)) (queue res : List String),
      (deps.map (fun p => p.2.length)).sum + queue.length ≤ n →
      deps = D0.map
        (fun p => (p.1, p.2.filter (fun d => !(res.contains d)))) →
      (res ++ queue).Nodup →
      (∀ k ∈ res ++ queue, k ∈ D0.map Prod.fst) →
      (∀ p ∈ D0, (p.2.filter (fun d => !(res.contains d)) = [] ↔
        p.1 ∈ res ++ queue)) →
      (∀ p ∈ D0, p.1 ∈ res → ∀ d ∈ p.2,
        d ∈ res.takeWhile (fun k => k != p.1)) →
      (kahn_loop deps queue res).Nodup ∧
      (∀ k ∈ kahn_loop deps queue res, k ∈ D0.map Prod.fst) ∧
      (∀ p ∈ D0, p.1 ∈ kahn_loop deps queue res → ∀ d ∈ p.2,
        d ∈ (kahn_loop deps queue res).takeWhile (fun k => k != p.1)) ∧
      (∀ p ∈ D0, p.1 ∉ kahn_loop deps queue res →
        ∃ d ∈ p.2, d ∉ kahn_loop deps queue res) := by
  intro n
  induction n with
  | zero =>
      intro deps queue res hm h1 h2 h3 h4 h5
      have hq : queue = [] := by
        cases queue with
        | nil => rfl
        | cons a t =>
            exfalso
            simp only [List.length_cons] at hm
            omega
      subst hq
      exact kahn_loop_nil_spec D0 deps res (by simpa using h2)
        (by simpa using h3) (by simpa using h4) h5
  | succ n ih =>
      intro deps queue res hm h1 h2 h3 h4 h5
      match queue with
      | [] =>
          exact kahn_loop_nil_spec D0 deps res (by simpa using h2)
            (by simpa using h3) (by simpa using h4) h5
      | current :: rest =>
          have hstep : kahn_loop deps (current :: rest) res =
              kahn_loop (kahn_step_deps deps current)
                (rest ++ kahn_newly_free deps current) (res ++ [current]) := by
            rw [kahn_loop]
          rw [hstep]
          have hkeys : deps.map Prod.fst = D0.map Prod.fst := by
            rw [h1, List.map_map]
            rfl
          have hmeas :
              ((kahn_step_deps deps current).map (fun p => p.2.length)).sum
                + (rest ++ kahn_newly_free deps current).length ≤ n := by
            have h := kahn_measure_le deps current
            simp only [List.length_append, List.length_cons] at hm ⊢
            omega
          have hsplit := List.nodup_append.mp h2
          have hcres : current ∉ res := fun hc => hsplit.2.2 hc (by simp)
          have hcrest : current ∉ rest := by
            have := hsplit.2.1
            simp only [List.nodup_cons] at this
            exact this.1
          have hnf_prop : ∀ x, x ∈ kahn_newly_free deps current →
              ∃ p ∈ D0, p.1 = x ∧
                p.2.filter (fun d => !(res.contains d)) ≠ [] ∧
                (p.2.filter (fun d => !(res.contains d))).erase current
                  = [] := by
            intro x hx
            rw [h1] at hx
            obtain ⟨p, hp, hpx, hin, herase⟩ :=
              (mem_kahn_newly_free D0 res current x).mp hx
            exact ⟨p, hp, hpx, List.ne_nil_of_mem hin, herase⟩
          have hnf_fresh : ∀ x ∈ kahn_newly_free deps current,
              x ∉ res ++ current :: rest := by
            intro x hx hmem
            obtain ⟨p, hp, hpx, hne, _⟩ := hnf_prop x hx
            exact hne ((h4 p hp).mpr (by rw [hpx]; exact hmem))
          have hnf_nd : (kahn_newly_free deps current).Nodup := by
            have hsub : List.Sublist (kahn_newly_free deps current)
                (deps.map Prod.fst) :=
              List.Sublist.map Prod.fst (List.filter_sublist deps)
            have hnd : (deps.map Prod.fst).Nodup := by
              rw [hkeys]
              exact hK
            exact hnd.sublist hsub
          have hshape :
              (res ++ [current]) ++ (rest ++ kahn_newly_free deps current)
                = (res ++ current :: rest) ++ kahn_newly_free deps current
              := by simp
          refine ih (kahn_step_deps deps current)
            (rest ++ kahn_newly_free deps current) (res ++ [current])
            hmeas ?_ ?_ ?_ ?_ ?_
          · rw [h1]
            simp only [kahn_step_deps, List.map_map]
            apply List.map_congr_left
            intro p hp
            simp only [Function.comp]
            rw [filter_erase_step p.2 (hdedup p hp) res current]
          · rw [hshape]
            exact List.nodup_append.mpr ⟨h2, hnf_nd,
              fun a ha ha' => hnf_fresh a ha' ha⟩
          · intro k hk
            rw [hshape] at hk
            rcases List.mem_append.mp hk with hk | hk
            · exact h3 k hk
            · obtain ⟨p, hp, hpk, _, _⟩ := hnf_prop k hk
              exact hpk ▸ List.mem_map_of_mem Prod.fst hp
          · intro p hp
            have hcur_erase :
                p.2.filter (fun d => !((res ++ [current]).contains d))
                  = (p.2.filter (fun d => !(res.contains d))).erase current
                := (filter_erase_step p.2 (hdedup p hp) res current).symm
            constructor
            · intro hs'
              rw [hcur_erase] at hs'
              by_cases hs : p.2.filter (fun d => !(res.contains d)) = []
              · have hmem := (h4 p hp).mp hs
                rw [hshape]
                exact List.mem_append_left _ hmem
              · have hsc := eq_singleton_of_erase_nil _ current hs hs'
                have hnf : p.1 ∈ kahn_newly_free deps current := by
                  rw [h1]
                  refine (mem_kahn_newly_free D0 res current p.1).mpr
                    ⟨p, hp, rfl, ?_, hs'⟩
                  rw [hsc]
                  simp
                rw [hshape]
                simp [hnf]
            · intro hmem
              rw [hcur_erase]
              rw [hshape] at hmem
              rcases List.mem_append.mp hmem with h | h
              · have hs := (h4 p hp).mpr h
                rw [hs]
                rfl
              · obtain ⟨q, hq, hqp, _, herase⟩ := hnf_prop p.1 h
                have hqe : q = p := nodup_keys_eq D0 hK q p hq hp hqp
                rw [← hqe]
                exact herase
          · intro p hp hmem d hd
            rcases List.mem_append.mp hmem with h | h
            · rw [takeWhile_append_of_mem res [current] p.1 h]
              exact h5 p hp h d hd
            · have hpc : p.1 = current := by simpa using h
              rw [hpc]
              rw [show res ++ [current] = res ++ current :: [] from rfl,
                takeWhile_append_self res [] current hcres]
              have hs := (h4 p hp).mpr (by rw [hpc]; simp)
              rw [filter_nil_iff] at hs
              simpa using hs d hd

/-- A constant-true filter changes nothing (entry-wise form used for the
initial Kahn state). -/
theorem map_filter_empty_contains (l : List (String × List String)) :
    l.map (fun p => (p.1, p.2.filter
      (fun d => !(([] : List String).contains d)))) = l := by
  induction l with
  | nil => rfl
  | cons a t ih =>
      simp only [List.map_cons, ih, List.cons.injEq, and_true]
      have hfe : List.filter (fun d => !(([] : List String).contains d)) a.2
          = a.2 := List.filter_eq_self.mpr (fun d _ => rfl)
      rw [hfe]

/-- What one run of `_sort_dependencies` produces, given duplicate-free
plugin names and dependencies that all name existing plugins: a
duplicate-free list of plugin names in which every emitted plugin's
dependencies precede it, every unemitted plugin retains an unemitted
dependency, and the function's answer is `.ok result` or the circular
error on the unemitted set according to whether the result is complete. -/
theorem sort_dependencies_spec (plugins : List (String × List String))
    (hnd : (plugins.map Prod.fst).Nodup)
    (hclosed : ∀ p ∈ plugins, ∀ d ∈ p.2, d ∈ plugins.map Prod.fst) :
    ∃ result : List String,
      result.Nodup ∧
      (∀ k ∈ result, k ∈ plugins.map Prod.fst) ∧
      (∀ p ∈ plugins, p.1 ∈ result → ∀ d ∈ p.2,
        d ∈ result.takeWhile (fun k => k != p.1)) ∧
      (∀ p ∈ plugins, p.1 ∉ result → ∃ d ∈ p.2, d ∉ result) ∧
      (result.length = plugins.length →
        sort_dependencies plugins = .ok result) ∧
      (result.length ≠ plugins.length →
        sort_dependencies plugins = .error (.circular
          ((plugins.map Prod.fst).filter
            (fun k => !(result.contains k))))) := by
  classical
  have hkeysD : (plugins.map (fun p => (p.1, p.2.dedup))).map Prod.fst
      = plugins.map Prod.fst := by
    rw [List.map_map]
    rfl
  have hK : ((plugins.map (fun p => (p.1, p.2.dedup))).map Prod.fst).Nodup
      := by
    rw [hkeysD]
    exact hnd
  have hdedup : ∀ p ∈ plugins.map (fun p => (p.1, p.2.dedup)),
      p.2.Nodup := by
    intro p hp
    obtain ⟨q, _, rfl⟩ := List.mem_map.mp hp
    exact List.nodup_dedup q.2
  have hfind : (plugins.map (fun p => (p.1, p.2.dedup))).find?
      (fun p => p.2.any
        (fun d => !(((plugins.map (fun p => (p.1, p.2.dedup))).map
          Prod.fst).contains d))) = none := by
    rw [List.find?_eq_none]
    intro p hp heq
    obtain ⟨q, hq, rfl⟩ := List.mem_map.mp hp
    rw [List.any_eq_true] at heq
    obtain ⟨d, hd, hdc⟩ := heq
    have hdq : d ∈ q.2 := List.mem_dedup.mp hd
    have hdk : d ∈ plugins.map Prod.fst := hclosed q hq d hdq
    rw [hkeysD] at hdc
    simp [hdk] at hdc
  have hfid : ∀ (s : List String),
      s.filter (fun d => !(([] : List String).contains d)) = s :=
    fun s => List.filter_eq_self.mpr (fun d _ => rfl)
  have hnodeps_sub : List.Sublist
      (((plugins.map (fun p => (p.1, p.2.dedup))).filter
        (fun p => p.2.isEmpty)).map Prod.fst)
      ((plugins.map (fun p => (p.1, p.2.dedup))).map Prod.fst) :=
    List.Sublist.map Prod.fst (List.filter_sublist _)
  have hspec := kahn_loop_spec (plugins.map (fun p => (p.1, p.2.dedup)))
    hK hdedup
    (((plugins.map (fun p => (p.1, p.2.dedup))).map
      (fun p => p.2.length)).sum
      + (((plugins.map (fun p => (p.1, p.2.dedup))).filter
        (fun p => p.2.isEmpty)).map Prod.fst).length)
    (plugins.map (fun p => (p.1, p.2.dedup)))
    (((plugins.map (fun p => (p.1, p.2.dedup))).filter
      (fun p => p.2.isEmpty)).map Prod.fst)
    [] (le_refl _)
    ?_ ?_ ?_ ?_ ?_
  rotate_left
  · conv_lhs => rw [← map_filter_empty_contains
      (plugins.map (fun p => (p.1, p.2.dedup)))]
  · simp only [List.nil_append]
    exact hK.sublist hnodeps_sub
  · intro k hk
    simp only [List.nil_append] at hk
    exact hnodeps_sub.subset hk
  · intro p hp
    rw [hfid p.2]
    simp only [List.nil_append]
    constructor
    · intro he
      apply List.mem_map_of_mem Prod.fst
      exact List.mem_filter.mpr ⟨hp, by rw [he]; rfl⟩
    · intro hm
      obtain ⟨q, hq, hqp⟩ := List.mem_map.mp hm
      have hqf := List.mem_filter.mp hq
      have hqe : q = p := nodup_keys_eq _ hK q p hqf.1 hp hqp
      rw [← hqe]
      exact List.isEmpty_iff.mp hqf.2
  · intro p _ hmem
    simp at hmem
  obtain ⟨o1, o2, o3, o4⟩ := hspec
  have hsort : sort_dependencies plugins =
      (if (kahn_loop (plugins.map (fun p => (p.1, p.2.dedup)))
          (((plugins.map (fun p => (p.1, p.2.dedup))).filter
            (fun p => p.2.isEmpty)).map Prod.fst) []).length
          ≠ (plugins.map (fun p => (p.1, p.2.dedup))).length then
        Except.error (SortError.circular
          (((plugins.map (fun p => (p.1, p.2.dedup))).map Prod.fst).filter
            (fun k => !((kahn_loop (plugins.map (fun p => (p.1, p.2.dedup)))
              (((plugins.map (fun p => (p.1, p.2.dedup))).filter
                (fun p => p.2.isEmpty)).map Prod.fst) []).contains k))))
      else .ok (kahn_loop (plugins.map (fun p => (p.1, p.2.dedup)))
        (((plugins.map (fun p => (p.1, p.2.dedup))).filter
          (fun p => p.2.isEmpty)).map Prod.fst) [])) := by
    simp only [sort_dependencies, hfind]
  have hlenD : (plugins.map (fun p => (p.1, p.2.dedup))).length
      = plugins.length := List.length_map _ _
  refine ⟨kahn_loop (plugins.map (fun p => (p.1, p.2.dedup)))
    (((plugins.map (fun p => (p.1, p.2.dedup))).filter
      (fun p => p.2.isEmpty)).map Prod.fst) [], o1, ?_, ?_, ?_, ?_, ?_⟩
  · intro k hk
    rw [← hkeysD]
    exact o2 k hk
  · intro p hp hmem d hd
    exact o3 (p.1, p.2.dedup) (List.mem_map_of_mem _ hp) hmem d
      (List.mem_dedup.mpr hd)
  · intro p hp hmem
    obtain ⟨d, hd, hdn⟩ := o4 (p.1, p.2.dedup)
      (List.mem_map_of_mem _ hp) hmem
    exact ⟨d, List.mem_dedup.mp hd, hdn⟩
  · intro hlen
    rw [hsort, if_neg]
    rw [hlenD]
    simpa using hlen
  · intro hlen
    rw [hsort, if_pos, hkeysD]
    rw [hlenD]
    simpa using hlen

/-!
## Claim C3
-/

/-- **C3.**  For plugins with duplicate-free names whose declared
dependencies all name existing plugins and whose dependency relation is
acyclic, `_sort_dependencies` succeeds and outputs a permutation of all
plugin names in which every plugin appears strictly after each of its
declared dependencies. -/
theorem C3_acyclic_sort_topological
    (plugins : List (String × List String))
    (hnd : (plugins.map Prod.fst).Nodup)
    (hclosed : ∀ p ∈ plugins, ∀ d ∈ p.2, d ∈ plugins.map Prod.fst)
    (hacyc : ∀ x, ¬ Relation.TransGen (declared_dep plugins) x x) :
    ∃ result, sort_dependencies plugins = .ok result ∧
      result.Perm (plugins.map Prod.fst) ∧
      ∀ p ∈ plugins, ∀ d ∈ p.2,
        result.indexOf d < result.indexOf p.1 := by
  obtain ⟨result, o1, o2, o3, o4, hok, _⟩ :=
    sort_dependencies_spec plugins hnd hclosed
  have hcomplete : ∀ k ∈ plugins.map Prod.fst, k ∈ result := by
    by_contra hcon
    push_neg at hcon
    obtain ⟨k0, hk0K, hk0n⟩ := hcon
    have hstep : ∀ x ∈ (plugins.map Prod.fst).filter
        (fun k => !(result.contains k)),
        ∃ y ∈ (plugins.map Prod.fst).filter
          (fun k => !(result.contains k)), declared_dep plugins x y := by
      intro x hx
      have hx' := List.mem_filter.mp hx
      have hxn : x ∉ result := by simpa using hx'.2
      obtain ⟨p, hp, hpx⟩ := List.mem_map.mp hx'.1
      obtain ⟨d, hd, hdn⟩ := o4 p hp (by rw [hpx]; exact hxn)
      exact ⟨d, List.mem_filter.mpr
          ⟨hclosed p hp d hd, by simpa using hdn⟩,
        ⟨p, hp, hpx, hd⟩⟩
    obtain ⟨c, _, hcyc⟩ := reach_cycle_of_succ _ hstep k0
      (List.mem_filter.mpr ⟨hk0K, by simpa using hk0n⟩)
    exact hacyc c hcyc
  have hperm : result.Perm (plugins.map Prod.fst) :=
    (List.perm_ext_iff_of_nodup o1 hnd).mpr
      (fun a => ⟨fun h => o2 a h, fun h => hcomplete a h⟩)
  have hlen : result.length = plugins.length := by
    rw [hperm.length_eq, List.length_map]
  refine ⟨result, hok hlen, hperm, ?_⟩
  intro p hp d hd
  have hpr : p.1 ∈ result := hcomplete p.1 (List.mem_map_of_mem Prod.fst hp)
  exact indexOf_lt_of_mem_takeWhile result p.1 d (o3 p hp hpr d hd) hpr

/-- The acyclic two-plugin configuration of the C3 witness: `b` depends
on `a`. -/
def c3_plugins : List (String × List String) := [("a", []), ("b", ["a"])]

/-- **C3, witness**: on the acyclic configuration `{a: [], b: [a]}` the
sorter succeeds with a permutation of `[a, b]` placing `a` before `b`. -/
theorem C3_acyclic_sort_topological_witness :
    ∃ result, sort_dependencies c3_plugins = .ok result ∧
      result.Perm (c3_plugins.map Prod.fst) ∧
      ∀ p ∈ c3_plugins, ∀ d ∈ p.2,
        result.indexOf d < result.indexOf p.1 :=
  C3_acyclic_sort_topological c3_plugins (by decide) (by decide) (by
    intro x hx
    have hedge : ∀ u v, declared_dep c3_plugins u v →
        u = "b" ∧ v = "a" := by
      intro u v huv
      obtain ⟨p, hp, hpu, hvd⟩ := huv
      simp only [c3_plugins, List.mem_cons, List.not_mem_nil,
        or_false] at hp
      rcases hp with hp | hp
      · rw [hp] at hvd
        simp at hvd
      · rw [hp] at hvd hpu
        exact ⟨by simpa using hpu.symm, by simpa using hvd⟩
    have hTG : ∀ u v, Relation.TransGen (declared_dep c3_plugins) u v →
        u = "b" ∧ v = "a" := by
      intro u v h
      induction h with
      | single h1 => exact hedge _ _ h1
      | tail _ hlast ihp =>
          have hb := (hedge _ _ hlast).1
          rw [ihp.2] at hb
          exact absurd hb (by decide)
    obtain ⟨h1, h2⟩ := hTG x x hx
    rw [h1] at h2
    exact absurd h2 (by decide))

/-!
## Claim C7

The claim: the reported circular-dependency set is *exactly* the set of
plugins lying on a dependency cycle.  In `plugins.py` this is false: the
remainder `set(dependencies) - set(result)` also contains every plugin
that (transitively) depends on a cycle without being on one, because such
a plugin's dependency set never empties and it is never enqueued.
-/

/-- The C7 configuration: `a` and `b` form a cycle, `x` depends on `a`
but lies on no cycle. -/
def c7_plugins : List (String × List String) :=
  [("a", ["b"]), ("b", ["a"]), ("x", ["a"])]

/-- Every declared dependency edge of `c7_plugins`. -/
theorem c7_edges : ∀ u v, declared_dep c7_plugins u v →
    (u = "a" ∧ v = "b") ∨ (u = "b" ∧ v = "a") ∨
    (u = "x" ∧ v = "a") := by
  intro u v huv
  obtain ⟨p, hp, hpu, hvd⟩ := huv
  simp only [c7_plugins, List.mem_cons, List.not_mem_nil, or_false] at hp
  rcases hp with hp | hp | hp <;> rw [hp] at hvd hpu
  · exact Or.inl ⟨by simpa using hpu.symm, by simpa using hvd⟩
  · exact Or.inr (Or.inl ⟨by simpa using hpu.symm, by simpa using hvd⟩)
  · exact Or.inr (Or.inr ⟨by simpa using hpu.symm, by simpa using hvd⟩)

/-- **C7, counterexample.**  On `{a: [b], b: [a], x: [a]}` the sorter
reports the set `{a, b, x}`, although `x` lies on no dependency cycle —
contradicting the claim that exactly the cyclic subset is reported. -/
theorem C7_counterexample :
    sort_dependencies c7_plugins = .error (.circular ["a", "b", "x"]) ∧
    ¬ Relation.TransGen (declared_dep c7_plugins) "x" "x" := by
  constructor
  · have hnd0 : ((c7_plugins.map (fun p => (p.1, p.2.dedup))).filter
        (fun p => p.2.isEmpty)).map Prod.fst = ([] : List String) := by
      decide
    have h0 : kahn_loop (c7_plugins.map (fun p => (p.1, p.2.dedup)))
        (((c7_plugins.map (fun p => (p.1, p.2.dedup))).filter
          (fun p => p.2.isEmpty)).map Prod.fst) [] = [] := by
      rw [hnd0, kahn_loop]
    simp only [sort_dependencies]
    rw [h0]
    decide
  · intro hcyc
    have hreach : ∀ z, Relation.TransGen (declared_dep c7_plugins) "x" z →
        z = "a" ∨ z = "b" := by
      intro z h
      induction h with
      | single h1 =>
          rcases c7_edges _ _ h1 with ⟨h, _⟩ | ⟨h, _⟩ | ⟨_, h⟩
          · exact absurd h (by decide)
          · exact absurd h (by decide)
          · exact Or.inl h
      | tail _ hlast ihp =>
          rcases c7_edges _ _ hlast with ⟨_, h⟩ | ⟨_, h⟩ | ⟨h, _⟩
          · exact Or.inr h
          · exact Or.inl h
          · rcases ihp with h' | h' <;>
              (rw [h'] at h; exact absurd h (by decide))
    rcases hreach "x" hcyc with h | h <;> exact absurd h (by decide)

/-- **C7 (amended).**  When the sorter fails with the circular error, the
reported set contains every plugin lying on a dependency cycle, and
conversely every reported plugin *reaches* a cycle through declared
dependencies (possibly in zero steps) — but need not itself lie on one. -/
theorem C7_unsorted_set_reaches_cycles
    (plugins : List (String × List String))
    (hnd : (plugins.map Prod.fst).Nodup)
    (hclosed : ∀ p ∈ plugins, ∀ d ∈ p.2, d ∈ plugins.map Prod.fst)
    (rem : List String)
    (hrun : sort_dependencies plugins = .error (.circular rem)) :
    (∀ x, Relation.TransGen (declared_dep plugins) x x → x ∈ rem) ∧
    (∀ x ∈ rem, ∃ c, Relation.ReflTransGen (declared_dep plugins) x c ∧
      Relation.TransGen (declared_dep plugins) c c) := by
  obtain ⟨result, o1, o2, o3, o4, hok, herr⟩ :=
    sort_dependencies_spec plugins hnd hclosed
  by_cases hlen : result.length = plugins.length
  · rw [hok hlen] at hrun
    exact (Except.noConfusion hrun)
  · rw [herr hlen] at hrun
    injection hrun with hrun
    injection hrun with hrun
    have hstep_res : ∀ u v, declared_dep plugins u v → u ∈ result →
        v ∈ result ∧ result.indexOf v < result.indexOf u := by
      intro u v huv hu
      obtain ⟨p, hp, hpu, hvd⟩ := huv
      have htw := o3 p hp (hpu ▸ hu) v hvd
      refine ⟨takeWhile_mem result _ v htw, ?_⟩
      rw [← hpu]
      exact indexOf_lt_of_mem_takeWhile result p.1 v htw (hpu ▸ hu)
    have hchain_res : ∀ u v,
        Relation.TransGen (declared_dep plugins) u v → u ∈ result →
        v ∈ result ∧ result.indexOf v < result.indexOf u := by
      intro u v h
      induction h with
      | single h1 => exact fun hu => hstep_res _ _ h1 hu
      | tail _ hlast ih =>
          intro hu
          obtain ⟨hb, hib⟩ := ih hu
          obtain ⟨hc, hic⟩ := hstep_res _ _ hlast hb
          exact ⟨hc, Nat.lt_trans hic hib⟩
    have hstep : ∀ x ∈ (plugins.map Prod.fst).filter
        (fun k => !(result.contains k)),
        ∃ y ∈ (plugins.map Prod.fst).filter
          (fun k => !(result.contains k)), declared_dep plugins x y := by
      intro x hx
      have hx' := List.mem_filter.mp hx
      have hxn : x ∉ result := by simpa using hx'.2
      obtain ⟨p, hp, hpx⟩ := List.mem_map.mp hx'.1
      obtain ⟨d, hd, hdn⟩ := o4 p hp (by rw [hpx]; exact hxn)
      exact ⟨d, List.mem_filter.mpr
          ⟨hclosed p hp d hd, by simpa using hdn⟩,
        ⟨p, hp, hpx, hd⟩⟩
    constructor
    · intro x hcyc
      obtain ⟨y, hxy, _⟩ := Relation.TransGen.head'_iff.mp hcyc
      obtain ⟨p, hp, hpx, _⟩ := hxy
      have hxK : x ∈ plugins.map Prod.fst :=
        hpx ▸ List.mem_map_of_mem Prod.fst hp
      have hxn : x ∉ result := fun hx =>
        absurd (hchain_res x x hcyc hx).2 (Nat.lt_irrefl _)
      rw [← hrun]
      exact List.mem_filter.mpr ⟨hxK, by simpa using hxn⟩
    · intro x hx
      rw [← hrun] at hx
      exact reach_cycle_of_succ _ hstep x hx

/-- **C7, witness** for the amended theorem, on the counterexample
configuration: the reported plugin `x` (which is on no cycle) reaches a
cycle. -/
theorem C7_unsorted_set_reaches_cycles_witness :
    ∃ c, Relation.ReflTransGen (declared_dep c7_plugins) "x" c ∧
      Relation.TransGen (declared_dep c7_plugins) c c :=
  (C7_unsorted_set_reaches_cycles c7_plugins (by decide) (by decide)
    ["a", "b", "x"] (by
      have hnd0 : ((c7_plugins.map (fun p => (p.1, p.2.dedup))).filter
          (fun p => p.2.isEmpty)).map Prod.fst = ([] : List String) := by
        decide
      have h0 : kahn_loop (c7_plugins.map (fun p => (p.1, p.2.dedup)))
          (((c7_plugins.map (fun p => (p.1, p.2.dedup))).filter
            (fun p => p.2.isEmpty)).map Prod.fst) [] = [] := by
        rw [hnd0, kahn_loop]
      simp only [sort_dependencies]
      rw [h0]
      decide)).2 "x" (by decide)

end Coframe
